import Mathlib

/-!
Verification development for the attention-model TSP policy network
(`utils/nets/am.py`).

The development has two layers:

* a *shaped* embedding of the decoder pipeline (`AM.forward`, `AM.decoder`,
  `AM._get_log_p`, `AM._one_to_many_logits`, `AM._select_node`,
  `AM._get_parallel_step_context`, `AM.calc_distance`, `AM.set_decode_type`),
  in which tensors are dependent functions over `Fin` index types and machine
  floats are modelled by real numbers; the IEEE value `-inf`, which the code
  injects at masked logits, is modelled by `⊥ : WithBot ℝ`;

* a *flat* embedding of the tensor-layout operations (`view`, `expand`,
  `permute`, `chunk`, `mean`, linear layers) used by `AM._precompute` and
  `AM._make_heads`, in which a tensor is a shape list together with a
  multi-index data accessor, so that shape errors (`view` on a size that does
  not divide) are observable as `Option.none`.

External collaborators that are part of the repository but whose sources are
not available (`utils/problems/problem_tsp.py`, `utils/nets/graph_encoder.py`,
`utils/nets/critic.py`) are modelled from the specification and marked as such
in their doc comments.
-/

/-! ## Arithmetic helpers for head-splitting index calculations -/

/-- Bound used to place a (head, within-head) index pair inside a flattened
embedding axis: if `a < A` and `b < B` then `a * B + b < A * B`. -/
theorem mul_add_lt {a A b B : ℕ} (ha : a < A) (hb : b < B) : a * B + b < A * B := by
  calc a * B + b < a * B + B := by omega
    _ = (a + 1) * B := by ring
    _ ≤ A * B := Nat.mul_le_mul_right B ha

/-- Index of the `(h, d)` entry of a head-split axis inside the flat embedding
axis of size `nH * hd` (row-major: head `h` owns the slice
`[h * hd, (h+1) * hd)`). -/
def hIdx {nH hd : ℕ} (h : Fin nH) (d : Fin hd) : Fin (nH * hd) :=
  ⟨h.val * hd + d.val, mul_add_lt h.isLt d.isLt⟩

/-- Head component of a flat embedding-axis index (inverse of `hIdx`). -/
def hOf {nH hd : ℕ} (e : Fin (nH * hd)) : Fin nH :=
  ⟨e.val / hd, Nat.div_lt_of_lt_mul (Nat.lt_of_lt_of_le e.isLt (Nat.le_of_eq (Nat.mul_comm nH hd)))⟩

/-- Within-head component of a flat embedding-axis index (inverse of `hIdx`). -/
def dOf {nH hd : ℕ} (e : Fin (nH * hd)) : Fin hd :=
  ⟨e.val % hd, by
    have hpos : 0 < nH * hd := Nat.lt_of_le_of_lt (Nat.zero_le _) e.isLt
    have hhd : 0 < hd := by
      rcases Nat.eq_zero_or_pos hd with h0 | h0
      · exact absurd hpos (by simp [h0])
      · exact h0
    exact Nat.mod_lt _ hhd⟩

/-! ## IEEE `-inf` bookkeeping

The decoder writes `logits[mask] = -math.inf` and then takes a log-softmax.
We model a float that is either a finite value or `-inf` by `WithBot ℝ`. -/

/-- Division of a possibly `-inf` value by a (positive) temperature, as in
`log_p / self.temp`: `-inf / t = -inf`, finite values divide as reals.  The
source only ever divides by the decoding temperature, which is positive. -/
noncomputable def divW (x : WithBot ℝ) (t : ℝ) : WithBot ℝ := x.map (fun r => r / t)

/-- Exponentiation of a possibly `-inf` value, as in `log_p.exp()`:
`exp(-inf) = 0` exactly, finite values exponentiate as reals. -/
noncomputable def expW : WithBot ℝ → ℝ := WithBot.recBotCoe 0 Real.exp

/-- Log-softmax over the node axis, as in `torch.log_softmax(·, dim=-1)`:
`x j - log (Σ k, exp (x k))`, where `-inf` entries contribute `exp(-inf) = 0`
to the normalizer and stay `-inf` in the output. -/
noncomputable def log_softmax {N : ℕ} (x : Fin N → WithBot ℝ) : Fin N → WithBot ℝ :=
  fun j => (x j).map (fun r => r - Real.log (∑ k, expW (x k)))

/-! ## The problem-state collaborator (`utils/problems/problem_tsp.py`) -/

/-- Modelled from the spec: the `TSP` state object
(`utils/problems/problem_tsp.py` is not among the available sources).  Per the
spec it tracks the index of the first selected node, the index of the current
(most recently selected) node, the step counter `i`, and a boolean visitation
mask of shape `(B, N)`.  Before the first selection `first_a`/`current` are
meaningless; they are initialised to node `0` and never read at step 0. -/
structure TSPState (B N : ℕ) where
  first_a : Fin B → Fin N
  current : Fin B → Fin N
  i : ℕ
  visited : Fin B → Fin N → Bool

namespace TSPState

/-- Modelled from the spec: `TSP.make_state` — step counter `0`, nothing
visited. -/
def make_state {B N : ℕ} (hN : 0 < N) : TSPState B N :=
  ⟨fun _ => ⟨0, hN⟩, fun _ => ⟨0, hN⟩, 0, fun _ _ => false⟩

/-- Modelled from the spec: `state.get_mask()` marks exactly the
already-visited nodes. -/
def get_mask {B N : ℕ} (s : TSPState B N) : Fin B → Fin N → Bool := s.visited

/-- Modelled from the spec: `state.get_current_node()`. -/
def get_current_node {B N : ℕ} (s : TSPState B N) : Fin B → Fin N := s.current

/-- Modelled from the spec: `state.all_finished()` — terminal when all `N`
nodes are visited, i.e. after `N` update steps. -/
def all_finished {B N : ℕ} (s : TSPState B N) : Prop := N ≤ s.i

/-- Modelled from the spec: `state.update(selected)` returns a new state with
the selected node marked visited, the current node replaced, the first node
recorded at step 0, and the step counter incremented. -/
def update {B N : ℕ} (s : TSPState B N) (sel : Fin B → Fin N) : TSPState B N :=
  ⟨fun b => if s.i = 0 then sel b else s.first_a b,
   sel,
   s.i + 1,
   fun b v => s.visited b v || decide (v = sel b)⟩

end TSPState

/-- Modelled from the spec: Euclidean distance between two 2-D points
(coordinates are indexed by `Fin 2`, matching the trailing axis of the input
tensor). -/
noncomputable def euclid (p q : Fin 2 → ℝ) : ℝ :=
  Real.sqrt (∑ c, (p c - q c) ^ 2)

/-- Modelled from the spec: `TSP.get_costs` — the cost of a batch row is the
sum of Euclidean distances between consecutive tour nodes, including the
closing edge back to the first node.  (`utils/problems/problem_tsp.py` is not
among the available sources; the feasibility mask it also returns is unused by
the caller and not modelled.) -/
noncomputable def tour_cost {N : ℕ} (pts : Fin N → Fin 2 → ℝ) (row : List (Fin N)) : ℝ :=
  (List.zipWith (fun u v => euclid (pts u) (pts v)) row (row.rotate 1)).sum

/-- Modelled from the spec: batched `TSP.get_costs` over the stacked tours. -/
noncomputable def get_costs {B N : ℕ} (points : Fin B → Fin N → Fin 2 → ℝ)
    (trs : List (Fin B → Fin N)) : Fin B → ℝ :=
  fun b => tour_cost (points b) (trs.map fun f => f b)

/-! ## The model (`AM.__init__` state) -/

/-- Parameters and mutable configuration of the `AM` module, shaped world.
The embedding dimension is `nH * hd` (`embedding_dim = n_heads * head_dim`;
`_make_heads` requires the divisibility, which the flat embedding below makes
observable).  Linear layers are stored as weight matrices (`project_*` layers
are created with `bias=False`; `initial_embedder` has a bias). -/
structure AM (nH hd : ℕ) where
  W_placeholder : Fin (2 * (nH * hd)) → ℝ
  initial_embedder_w : Fin (nH * hd) → Fin 2 → ℝ
  initial_embedder_b : Fin (nH * hd) → ℝ
  project_node_embeddings : Fin (3 * (nH * hd)) → Fin (nH * hd) → ℝ
  project_fixed_context : Fin (nH * hd) → Fin (nH * hd) → ℝ
  project_step_context : Fin (nH * hd) → Fin (2 * (nH * hd)) → ℝ
  project_out : Fin (nH * hd) → Fin (nH * hd) → ℝ
  tanh_clipping : ℝ
  temp : ℝ
  decode_type : Option String

namespace AM

/-- The `set_decode_type` method: always replaces `decode_type`; replaces the
stored temperature only when one is supplied (`if temp is not None`). -/
def set_decode_type {nH hd : ℕ} (m : AM nH hd) (dt : String) (t : Option ℝ) : AM nH hd :=
  { m with decode_type := some dt, temp := t.getD m.temp }

/-- The `calc_distance` method: per-row Euclidean distance between the
coordinates of the `current` and `previous` node indices
(`dif.pow(2).sum(dim=1).sqrt()`). -/
noncomputable def calc_distance {B N : ℕ} (points : Fin B → Fin N → Fin 2 → ℝ)
    (current previous : Fin B → Fin N) : Fin B → ℝ :=
  fun b => euclid (points b (current b)) (points b (previous b))

/-- Graph-level context of `_precompute`:
`self.project_fixed_context(embeddings.mean(1))` (the `(B,1,E)` singleton axis
is dropped in the shaped world). -/
noncomputable def graphEmbedding {B N nH hd : ℕ} (m : AM nH hd)
    (emb : Fin B → Fin N → Fin (nH * hd) → ℝ) : Fin B → Fin (nH * hd) → ℝ :=
  fun b e => ∑ e2, m.project_fixed_context e e2 * ((∑ n, emb b n e2) / (N : ℝ))

/-- One of the three equal chunks of
`self.project_node_embeddings(embeddings)` (`chunk(3, dim=-1)`): chunk `k`
covers output coordinates `[k*E, (k+1)*E)`. -/
noncomputable def node_chunk {B N nH hd : ℕ} (m : AM nH hd)
    (emb : Fin B → Fin N → Fin (nH * hd) → ℝ) (k : Fin 3) :
    Fin B → Fin N → Fin (nH * hd) → ℝ :=
  fun b n e =>
    ∑ j, m.project_node_embeddings ⟨k.val * (nH * hd) + e.val, mul_add_lt k.isLt e.isLt⟩ j
      * emb b n j

/-- Glimpse-key tensor of `_precompute`, after `_make_heads` (head-split view
of chunk 0). -/
noncomputable def key_glimpse {B N nH hd : ℕ} (m : AM nH hd)
    (emb : Fin B → Fin N → Fin (nH * hd) → ℝ) :
    Fin nH → Fin B → Fin N → Fin hd → ℝ :=
  fun h b n d => node_chunk m emb 0 b n (hIdx h d)

/-- Glimpse-value tensor of `_precompute`, after `_make_heads` (head-split
view of chunk 1). -/
noncomputable def val_glimpse {B N nH hd : ℕ} (m : AM nH hd)
    (emb : Fin B → Fin N → Fin (nH * hd) → ℝ) :
    Fin nH → Fin B → Fin N → Fin hd → ℝ :=
  fun h b n d => node_chunk m emb 1 b n (hIdx h d)

/-- Logit-key tensor of `_precompute`: chunk 2, kept contiguous and *not*
head-split (single head for the final logits). -/
noncomputable def logit_key {B N nH hd : ℕ} (m : AM nH hd)
    (emb : Fin B → Fin N → Fin (nH * hd) → ℝ) :
    Fin B → Fin N → Fin (nH * hd) → ℝ :=
  node_chunk m emb 2

/-- The `_get_parallel_step_context` method: at step 0 the learned placeholder
broadcast over the batch, afterwards the concatenation of the first-node and
current-node embeddings into a `2E`-wide context (the `(B,1,·)` singleton axis
is dropped in the shaped world). -/
noncomputable def get_parallel_step_context {B N nH hd : ℕ} (m : AM nH hd)
    (emb : Fin B → Fin N → Fin (nH * hd) → ℝ) (s : TSPState B N) :
    Fin B → Fin (2 * (nH * hd)) → ℝ :=
  if s.i = 0 then fun _ e => m.W_placeholder e
  else fun b e =>
    if h : e.val < nH * hd then emb b (s.first_a b) ⟨e.val, h⟩
    else emb b (s.get_current_node b) ⟨e.val - nH * hd, by
      have := e.isLt
      omega⟩

/-- The `_one_to_many_logits` method: multi-head glimpse attention followed by
single-head logits, `tanh` clipping, and `-inf` injection at masked positions.
Returns the masked logits together with the glimpse vector (the `num_steps = 1`
axis of the source is dropped in the shaped world). -/
noncomputable def one_to_many_logits {B N nH hd : ℕ} (m : AM nH hd)
    (query : Fin B → Fin (nH * hd) → ℝ)
    (K : Fin nH → Fin B → Fin N → Fin hd → ℝ)
    (V : Fin nH → Fin B → Fin N → Fin hd → ℝ)
    (L : Fin B → Fin N → Fin (nH * hd) → ℝ)
    (mask : Fin B → Fin N → Bool) :
    (Fin B → Fin N → WithBot ℝ) × (Fin B → Fin (nH * hd) → ℝ) :=
  let glimpse_Q : Fin nH → Fin B → Fin hd → ℝ := fun h b d => query b (hIdx h d)
  let compatibility : Fin nH → Fin B → Fin N → ℝ :=
    fun h b j => (∑ d, glimpse_Q h b d * K h b j d) / Real.sqrt (hd : ℝ)
  let attn : Fin nH → Fin B → Fin N → ℝ :=
    fun h b j => Real.exp (compatibility h b j) / ∑ k, Real.exp (compatibility h b k)
  let headsOut : Fin nH → Fin B → Fin hd → ℝ :=
    fun h b d => ∑ j, attn h b j * V h b j d
  let glimpse : Fin B → Fin (nH * hd) → ℝ :=
    fun b e => ∑ e2, m.project_out e e2 * headsOut (hOf e2) b (dOf e2)
  let logits : Fin B → Fin N → WithBot ℝ :=
    fun b j =>
      if mask b j then (⊥ : WithBot ℝ)
      else ((Real.tanh ((∑ e, glimpse b e * L b j e) / Real.sqrt ((nH * hd : ℕ) : ℝ))
              * m.tanh_clipping : ℝ) : WithBot ℝ)
  (logits, glimpse)

/-- Query of `_get_log_p`:
`graph_embedding + self.project_step_context(first_and_last)` (line 174). -/
noncomputable def step_query {B nH hd : ℕ} (m : AM nH hd)
    (ctx : Fin B → Fin (2 * (nH * hd)) → ℝ)
    (graphEmb : Fin B → Fin (nH * hd) → ℝ) : Fin B → Fin (nH * hd) → ℝ :=
  fun b e => graphEmb b e + ∑ e2, m.project_step_context e e2 * ctx b e2

/-- Value part of `_get_log_p`: query construction, attention logits, and the
temperature-scaled log-softmax (`torch.log_softmax(log_p / self.temp, -1)`).
The NaN assertion of the source is modelled separately in the decode loop. -/
noncomputable def get_log_p_raw {B N nH hd : ℕ} (m : AM nH hd)
    (ctx : Fin B → Fin (2 * (nH * hd)) → ℝ)
    (graphEmb : Fin B → Fin (nH * hd) → ℝ)
    (K : Fin nH → Fin B → Fin N → Fin hd → ℝ)
    (V : Fin nH → Fin B → Fin N → Fin hd → ℝ)
    (L : Fin B → Fin N → Fin (nH * hd) → ℝ)
    (mask : Fin B → Fin N → Bool) :
    Fin B → Fin N → WithBot ℝ :=
  fun b => log_softmax (fun j =>
    divW ((one_to_many_logits m (step_query m ctx graphEmb) K V L mask).1 b j) m.temp)

end AM

/-! ## Action selection (`_select_node`) and the decode loop (`decoder`) -/

/-- Runtime failures of the decoder, each corresponding to an abort site in
the source: the greedy feasibility `assert` (line 139), the
`NotImplementedError` for unknown decode types (line 149), the no-NaN `assert`
in `_get_log_p` (line 187, which fires exactly when a batch row is fully
masked), the `IndexError` raised by the `log_p.squeeze()[batch_id, selected]`
gather (line 107) when the squeeze collapses more than the `num_steps` axis,
and the `NameError`/`IndexError` after a zero-iteration loop (line 125).
`resampleDiverged` marks a run of the unbounded sampling-retry loop that
exceeds the modelled random stream. -/
inductive DecodeErr where
  | greedyInfeasible
  | notImplementedType
  | nanLogP
  | squeezeGather
  | emptyTours
  | resampleDiverged
deriving DecidableEq

/-- Index of the first maximal entry, modelling `probs.max(1)` (ties broken
towards the smallest index). -/
noncomputable def argmaxIdx {N : ℕ} (hN : 0 < N) (f : Fin N → ℝ) : Fin N :=
  have hne : (Finset.univ : Finset (Fin N)).Nonempty := ⟨⟨0, hN⟩, Finset.mem_univ _⟩
  (Finset.univ.filter (fun j => f j = Finset.univ.sup' hne f)).min' (by
    obtain ⟨j, _, hj⟩ := Finset.exists_mem_eq_sup' hne f
    exact ⟨j, by simp [hj.symm]⟩)

/-- The argmax attains the maximum. -/
theorem le_argmaxIdx {N : ℕ} (hN : 0 < N) (f : Fin N → ℝ) (k : Fin N) :
    f k ≤ f (argmaxIdx hN f) := by
  have hne : (Finset.univ : Finset (Fin N)).Nonempty := ⟨⟨0, hN⟩, Finset.mem_univ _⟩
  have hmem := Finset.min'_mem
    (Finset.univ.filter (fun j => f j = Finset.univ.sup' hne f))
    (by obtain ⟨j, _, hj⟩ := Finset.exists_mem_eq_sup' hne f
        exact ⟨j, by simp [hj.symm]⟩)
  have hval : f (argmaxIdx hN f) = Finset.univ.sup' hne f := by
    have := (Finset.mem_filter.mp hmem).2
    simpa [argmaxIdx] using this
  rw [argmaxIdx] at hval ⊢
  rw [hval]
  exact Finset.le_sup' f (Finset.mem_univ k)

/-- Rejection-resampling of `_select_node`'s sampling branch: draw a batch of
proposals from the stream, and while any row hits a masked position draw
again.  The source loop is unbounded; `fuel` bounds how many *re*-draws of the
modelled stream are examined, and exhausting it reports `resampleDiverged`
(standing for nontermination, never reached on streams that eventually propose
a feasible batch). -/
def resample_loop {B N : ℕ} (rand : ℕ → Fin B → Fin N) (mask : Fin B → Fin N → Bool) :
    ℕ → ℕ → Except DecodeErr (Fin B → Fin N)
  | t, 0 =>
    if _h : ∃ b, mask b (rand t b) = true then .error .resampleDiverged
    else .ok (rand t)
  | t, fuel + 1 =>
    if _h : ∃ b, mask b (rand t b) = true then resample_loop rand mask (t + 1) fuel
    else .ok (rand t)

/-- The `_select_node` method.  Greedy mode takes the per-row argmax and
asserts that no row's choice is masked; sampling mode draws from the stream
`rand` (a nondeterministic model of `probs.multinomial(1)`: any sequence of
draws the categorical distribution could produce is some stream) and
rejection-resamples; any other configured decode type (including the initial
`None`) raises `NotImplementedError`. -/
noncomputable def select_node {B N nH hd : ℕ} (m : AM nH hd) (hN : 0 < N)
    (rand : ℕ → Fin B → Fin N) (sfuel : ℕ)
    (probs : Fin B → Fin N → ℝ) (mask : Fin B → Fin N → Bool) :
    Except DecodeErr (Fin B → Fin N) :=
  if m.decode_type = some "greedy" then
    if _h : ∃ b, mask b (argmaxIdx hN (probs b)) = true then .error .greedyInfeasible
    else .ok fun b => argmaxIdx hN (probs b)
  else if m.decode_type = some "sampling" then
    resample_loop rand mask 0 sfuel
  else .error .notImplementedType

/-- Shape left by `torch.Tensor.squeeze()` with no `dim` argument: every axis
of size 1 is removed. -/
def torch_squeeze (s : List ℕ) : List ℕ := s.filter (fun d => d != 1)

/-- Aggregated outputs of one full decoder rollout, mirroring the return tuple
of `AM.decoder` (stacked per-step tensors are kept as lists of per-step
batch vectors). -/
structure RolloutResult (B N : ℕ) where
  log_ps : List (Fin B → WithBot ℝ)
  instant_rewards : List (Fin B → ℝ)
  values : List (Fin B → ℝ)
  cost : Fin B → ℝ
  reward_final : Fin B → ℝ
  tours : List (Fin B → Fin N)

namespace AM

/-- Per-step body and recursion of the `while not state.all_finished()` loop
in `AM.decoder` (lines 99-123).  The loop runs while `state.i < N`; we recurse
on `k = N - state.i`, which `state.update` decreases by one.  Per iteration,
in source order: step context (line 100), `_get_log_p` with its no-NaN assert
(lines 101-102, the assert fires exactly when some batch row is fully masked),
free selection or teacher forcing (lines 103-106), the
`log_p.squeeze()[batch_id, selected]` gather (line 107, an `IndexError` unless
the squeezed shape still has the batch and node axes), the critic value (lines
108-110, the critic is the external `ValueNet` collaborator, modelled as an
opaque function of the embeddings, the visitation mask determining the
available nodes, and the step context), the instant reward (lines 111-115),
and the accumulator appends plus state update (lines 117-123). -/
noncomputable def decode_loop {B N nH hd : ℕ} (m : AM nH hd)
    (critic : (Fin B → Fin N → Fin (nH * hd) → ℝ) → (Fin B → Fin N → Bool) →
      (Fin B → Fin (2 * (nH * hd)) → ℝ) → Fin B → ℝ)
    (rand : ℕ → ℕ → Fin B → Fin N) (sfuel : ℕ)
    (points : Fin B → Fin N → Fin 2 → ℝ)
    (emb : Fin B → Fin N → Fin (nH * hd) → ℝ)
    (graphEmb : Fin B → Fin (nH * hd) → ℝ)
    (K : Fin nH → Fin B → Fin N → Fin hd → ℝ)
    (V : Fin nH → Fin B → Fin N → Fin hd → ℝ)
    (L : Fin B → Fin N → Fin (nH * hd) → ℝ)
    (teacher : Option (ℕ → Fin B → Fin N)) (hN : 0 < N) :
    (k : ℕ) → (s : TSPState B N) → s.i + k = N → (Fin B → Fin N) →
    Except DecodeErr
      (List (Fin B → WithBot ℝ) × List (Fin B → ℝ) × List (Fin B → ℝ) ×
        List (Fin B → Fin N))
  | 0, _, _, _ => .ok ([], [], [], [])
  | k + 1, s, hk, prev =>
    let mask := s.get_mask
    let ctx := get_parallel_step_context m emb s
    if _hnan : ∀ b, ∃ j, mask b j = false then
      let lp := get_log_p_raw m ctx graphEmb K V L mask
      match (match teacher with
             | none => select_node m hN (rand s.i) sfuel (fun b j => expW (lp b j)) mask
             | some tt => Except.ok fun b => tt s.i b) with
      | .error e => .error e
      | .ok selected =>
        if (torch_squeeze [B, 1, N]).length = 2 then
          match decode_loop m critic rand sfuel points emb graphEmb K V L teacher hN
              k (s.update selected) (by simp only [TSPState.update] at *; omega) selected with
          | .error e => .error e
          | .ok out =>
            .ok ((fun b => lp b (selected b)) :: out.1,
                 (if s.i = 0 then (fun _ => (0 : ℝ))
                  else fun b => -(calc_distance points selected prev b)) :: out.2.1,
                 critic emb mask ctx :: out.2.2.1,
                 selected :: out.2.2.2)
        else .error .squeezeGather
    else .error .nanLogP

/-- The `decoder` method: build the initial TSP state, precompute the fixed
context, run the decode loop, and assemble the rollout result with the closing
reward `-calc_distance(input, selected, tours[0])` (line 125) and the external
cost function (line 129).  A zero-iteration loop (only possible for `N = 0`,
excluded by `hN`) would leave `selected` unbound in the source. -/
noncomputable def decoder {B N nH hd : ℕ} (m : AM nH hd)
    (critic : (Fin B → Fin N → Fin (nH * hd) → ℝ) → (Fin B → Fin N → Bool) →
      (Fin B → Fin (2 * (nH * hd)) → ℝ) → Fin B → ℝ)
    (rand : ℕ → ℕ → Fin B → Fin N) (sfuel : ℕ)
    (points : Fin B → Fin N → Fin 2 → ℝ)
    (emb : Fin B → Fin N → Fin (nH * hd) → ℝ)
    (teacher : Option (ℕ → Fin B → Fin N)) (hN : 0 < N) :
    Except DecodeErr (RolloutResult B N) :=
  match decode_loop m critic rand sfuel points emb
      (graphEmbedding m emb) (key_glimpse m emb) (val_glimpse m emb) (logit_key m emb)
      teacher hN N (TSPState.make_state hN) (by simp [TSPState.make_state]) (fun _ => ⟨0, hN⟩) with
  | .error e => .error e
  | .ok out =>
    match out.2.2.2.getLast?, out.2.2.2.head? with
    | some last, some first =>
      .ok { log_ps := out.1
            instant_rewards := out.2.1
            values := out.2.2.1
            cost := get_costs points out.2.2.2
            reward_final := fun b => -(calc_distance points last first b)
            tours := out.2.2.2 }
    | _, _ => .error .emptyTours

/-- The `forward` method: linear input embedding, the external graph encoder
(a black-box pure function per the spec; `utils/nets/graph_encoder.py` is not
among the available sources), then the decoder. -/
noncomputable def forward {B N nH hd : ℕ} (m : AM nH hd)
    (enc : (Fin B → Fin N → Fin (nH * hd) → ℝ) → (Fin B → Fin N → Fin (nH * hd) → ℝ))
    (critic : (Fin B → Fin N → Fin (nH * hd) → ℝ) → (Fin B → Fin N → Bool) →
      (Fin B → Fin (2 * (nH * hd)) → ℝ) → Fin B → ℝ)
    (rand : ℕ → ℕ → Fin B → Fin N) (sfuel : ℕ)
    (input : Fin B → Fin N → Fin 2 → ℝ)
    (teacher : Option (ℕ → Fin B → Fin N)) (hN : 0 < N) :
    Except DecodeErr (RolloutResult B N) :=
  let points_embedded : Fin B → Fin N → Fin (nH * hd) → ℝ :=
    fun b n e => (∑ c, m.initial_embedder_w e c * input b n c) + m.initial_embedder_b e
  decoder m critic rand sfuel input (enc points_embedded) teacher hN

end AM

/-! ## Flat tensor embedding (layout-accurate `_precompute` / `_make_heads`) -/

namespace Torch

/-- A tensor as torch sees it for layout purposes: a shape together with a
(row-major, contiguous) multi-index data accessor.  Out-of-range indices read
junk, as in the shallow embedding convention for partial reads. -/
structure Tensor where
  shape : List ℕ
  data : List ℕ → ℝ

/-- Size of axis `k`, as in `t.size(k)`. -/
def Tensor.size1 (t : Tensor) (k : ℕ) : ℕ := t.shape.getD k 0

/-- Row-major flat offset of a multi-index. -/
def flatten_idx : List ℕ → List ℕ → ℕ
  | _ :: ss, i :: is => i * ss.prod + flatten_idx ss is
  | _, _ => 0

/-- Multi-index of a row-major flat offset. -/
def unflatten_idx : List ℕ → ℕ → List ℕ
  | [], _ => []
  | _ :: ss, n => n / ss.prod :: unflatten_idx ss (n % ss.prod)

/-- Target-shape inference of `torch.Tensor.view`: explicit sizes must
multiply to the element count; a single `-1` (here `none`) is inferred by
exact division and is an error when the element count is not divisible by the
product of the explicit sizes (or when that product is zero). -/
def infer_view (n : ℕ) (spec : List (Option ℕ)) : Option (List ℕ) :=
  let k := (spec.filterMap id).prod
  match spec.countP (fun o => o.isNone) with
  | 0 => if k = n then some (spec.map fun o => o.getD 0) else none
  | 1 => if 0 < k ∧ k ∣ n then some (spec.map fun o => o.getD (n / k)) else none
  | _ => none

/-- `torch.Tensor.view` on a contiguous tensor: reinterpret the same
row-major data under the inferred shape. -/
def Tensor.view (t : Tensor) (spec : List (Option ℕ)) : Option Tensor :=
  (infer_view t.shape.prod spec).map fun s2 =>
    ⟨s2, fun m => t.data (unflatten_idx t.shape (flatten_idx s2 m))⟩

/-- `torch.Tensor.expand`: each axis either keeps its size (`none`, torch
`-1`, or an equal explicit size) or broadcasts a size-1 axis, whose index is
then read as 0. -/
def Tensor.expand (t : Tensor) (spec : List (Option ℕ)) : Option Tensor :=
  if (t.shape.length == spec.length
      && (t.shape.zip spec).all fun p =>
           match p.2 with
           | none => true
           | some d => p.1 == d || p.1 == 1) = true then
    some ⟨(t.shape.zip spec).map fun p => p.2.getD p.1,
          fun m => t.data ((t.shape.zip m).map fun p => if p.1 = 1 then 0 else p.2)⟩
  else none

/-- `torch.Tensor.permute`: reorder the axes by `p`; axis `j` of the source
appears at the position of `j` in `p`. -/
def Tensor.permute (t : Tensor) (p : List ℕ) : Option Tensor :=
  if (p.length == t.shape.length
      && (List.range t.shape.length).all fun j => p.contains j) = true then
    some ⟨p.map fun j => t.shape.getD j 0,
          fun m => t.data ((List.range t.shape.length).map fun j =>
            m.getD (p.findIdx fun x => x == j) 0)⟩
  else none

/-- `torch.Tensor.contiguous`: values and shape are unchanged (only the
memory layout is materialised). -/
def Tensor.contiguous (t : Tensor) : Tensor := t

/-- Indexing with `None` (`tensor[:, None, :, :]`): insert a size-1 axis. -/
def Tensor.unsqueeze (t : Tensor) (k : ℕ) : Tensor :=
  ⟨t.shape.insertIdx k 1, fun m => t.data (m.eraseIdx k)⟩

/-- `torch.Tensor.mean(k)`: average over axis `k`, which is removed. -/
noncomputable def Tensor.meanDim (t : Tensor) (k : ℕ) : Tensor :=
  ⟨t.shape.eraseIdx k,
   fun m => (∑ j ∈ Finset.range (t.shape.getD k 0), t.data (m.insertIdx k j))
     / ((t.shape.getD k 0 : ℕ) : ℝ)⟩

/-- A bias-free `nn.Linear` applied to the last axis, as a weight matrix `W`
of output row `o` against input column `j`. -/
noncomputable def linearNB (W : ℕ → ℕ → ℝ) (outF inF : ℕ) (t : Tensor) : Tensor :=
  ⟨t.shape.dropLast ++ [outF],
   fun m => ∑ j ∈ Finset.range inF, W (m.getLast?.getD 0) j * t.data (m.dropLast ++ [j])⟩

/-- Piece `idx` of `torch.Tensor.chunk(k, dim=-1)` in the evenly divisible
case (the only case exercised: the `3E`-wide projection is split in 3). -/
def Tensor.chunkLast (t : Tensor) (k idx : ℕ) : Tensor :=
  ⟨t.shape.dropLast ++ [t.shape.getLast?.getD 0 / k],
   fun m => t.data (m.dropLast ++ [idx * (t.shape.getLast?.getD 0 / k) + m.getLast?.getD 0])⟩

/-- The `_make_heads` method (lines 230-237): the guard models its `assert`,
then `contiguous().view(B, steps, N, n_heads, -1)`, `expand`, and
`permute(3, 0, 1, 2, 4)`.  The `view` is where a head count that does not
divide the embedding dimension first fails. -/
def make_heads (nH : ℕ) (v : Tensor) (num_steps : Option ℕ) : Option Tensor :=
  if (num_steps.isNone || v.size1 1 == 1 || num_steps == some (v.size1 1)) = true then
    (v.contiguous.view [some (v.size1 0), some (v.size1 1), some (v.size1 2), some nH,
        none]).bind fun t1 =>
      (t1.expand [some (v.size1 0),
          some (match num_steps with | none => v.size1 1 | some ns => ns),
          some (v.size1 2), some nH, none]).bind fun t2 =>
        t2.permute [3, 0, 1, 2, 4]
  else none

/-- The `_precompute` method (lines 152-167) in the flat embedding: graph
embedding (mean then `project_fixed_context`, with the `[:, None, :]` axis),
one `project_node_embeddings` projection of the `[:, None, :, :]`-unsqueezed
embeddings chunked in three, `_make_heads` on the glimpse key and value, and
the logit key kept `contiguous()` only. -/
noncomputable def precomputeF (E nH : ℕ) (Wfixed Wnode : ℕ → ℕ → ℝ)
    (embeddings : Tensor) : Option (Tensor × Tensor × Tensor × Tensor) :=
  let graph_embedding := ((linearNB Wfixed E E (embeddings.meanDim 1)).unsqueeze 1)
  let projected := linearNB Wnode (3 * E) E (embeddings.unsqueeze 1)
  (make_heads nH (projected.chunkLast 3 0) (some 1)).bind fun key_glimpse =>
    (make_heads nH (projected.chunkLast 3 1) (some 1)).bind fun val_glimpse =>
      some (graph_embedding, key_glimpse, val_glimpse,
        (projected.chunkLast 3 2).contiguous)

end Torch

/-! ## Construction (`AM.__init__`) -/

/-- Constructor arguments of `AM` (the `cfg` object fields read by
`__init__`). -/
structure Cfg where
  embedding_dim : ℕ
  hidden_dim : ℕ
  n_layers_encoder : ℕ
  tanh_clipping : ℝ
  n_heads : ℕ
  normalization : String

/-- Initial parameter values supplied by the runtime during construction
(`uniform_` for the placeholder, default initialisers for the linear layers
and the two submodules, whose internals are opaque here). -/
structure InitParams where
  placeholder_init : ℕ → ℝ
  embedder_w : ℕ → ℕ → ℝ
  embedder_b : ℕ → ℝ
  node_w : ℕ → ℕ → ℝ
  fixed_w : ℕ → ℕ → ℝ
  step_w : ℕ → ℕ → ℝ
  out_w : ℕ → ℕ → ℝ
  encoder_init : ℕ → ℝ
  critic_init : ℕ → ℝ

/-- Attribute state of a freshly constructed `AM` module (the untyped,
dimension-agnostic view of construction, before any tensor is pushed
through). -/
structure AMFlat where
  embedding_dim : ℕ
  hidden_dim : ℕ
  n_encode_layers : ℕ
  decode_type : Option String
  temp : ℝ
  tanh_clipping : ℝ
  n_heads : ℕ
  W_placeholder : ℕ → ℝ
  initial_embedder_w : ℕ → ℕ → ℝ
  initial_embedder_b : ℕ → ℝ
  encoder_state : ℕ → ℝ
  project_node_embeddings : ℕ → ℕ → ℝ
  project_fixed_context : ℕ → ℕ → ℝ
  project_step_context : ℕ → ℕ → ℝ
  project_out : ℕ → ℕ → ℝ
  critic_state : ℕ → ℝ

/-- The `AM.__init__` constructor (lines 15-44): a sequence of attribute
assignments, parameter creations, and submodule constructions.  None of these
steps validates `embedding_dim` against `n_heads` (no step can raise for any
field values); the external `GraphAttentionEncoder` and `ValueNet`
constructors are modelled from the spec as non-failing black boxes holding
their parameters, since their sources are not available.  The `Except` return
type records the possibility of a construction-time failure; this constructor
never produces one. -/
def AM_init (cfg : Cfg) (p : InitParams) : Except String AMFlat :=
  .ok { embedding_dim := cfg.embedding_dim
        hidden_dim := cfg.hidden_dim
        n_encode_layers := cfg.n_layers_encoder
        decode_type := none
        temp := 1
        tanh_clipping := cfg.tanh_clipping
        n_heads := cfg.n_heads
        W_placeholder := p.placeholder_init
        initial_embedder_w := p.embedder_w
        initial_embedder_b := p.embedder_b
        encoder_state := p.encoder_init
        project_node_embeddings := p.node_w
        project_fixed_context := p.fixed_w
        project_step_context := p.step_w
        project_out := p.out_w
        critic_state := p.critic_init }

/-! ## Lemmas about the `-inf` bookkeeping and the masked log-softmax -/

/-- A `WithBot ℝ` value is `-inf` or a finite real. -/
theorem withbot_cases (x : WithBot ℝ) : x = ⊥ ∨ ∃ r : ℝ, x = (r : WithBot ℝ) := by
  cases x with
  | bot => exact Or.inl rfl
  | coe r => exact Or.inr ⟨r, rfl⟩

@[simp] theorem expW_bot : expW ⊥ = 0 := rfl

@[simp] theorem expW_coe (r : ℝ) : expW (r : WithBot ℝ) = Real.exp r := rfl

@[simp] theorem divW_bot (t : ℝ) : divW ⊥ t = ⊥ := rfl

@[simp] theorem divW_coe (r t : ℝ) : divW (r : WithBot ℝ) t = ((r / t : ℝ) : WithBot ℝ) := rfl

theorem expW_nonneg (x : WithBot ℝ) : 0 ≤ expW x := by
  rcases withbot_cases x with h | ⟨r, h⟩
  · rw [h, expW_bot]
  · rw [h, expW_coe]; exact (Real.exp_pos r).le

theorem log_softmax_bot {N : ℕ} (x : Fin N → WithBot ℝ) (j : Fin N) (h : x j = ⊥) :
    log_softmax x j = ⊥ := by
  simp [log_softmax, h]

theorem log_softmax_coe {N : ℕ} (x : Fin N → WithBot ℝ) (j : Fin N) (r : ℝ)
    (h : x j = (r : WithBot ℝ)) :
    log_softmax x j = ((r - Real.log (∑ k, expW (x k)) : ℝ) : WithBot ℝ) := by
  simp [log_softmax, h]

/-- Softmax normalisation through the `-inf` bookkeeping: exponentiating a
log-softmax entry divides the entry's weight by the total weight. -/
theorem expW_log_softmax {N : ℕ} (x : Fin N → WithBot ℝ)
    (hZ : 0 < ∑ k, expW (x k)) (j : Fin N) :
    expW (log_softmax x j) = expW (x j) / ∑ k, expW (x k) := by
  rcases withbot_cases (x j) with h | ⟨r, h⟩
  · rw [log_softmax_bot x j h, h, expW_bot, zero_div]
  · rw [log_softmax_coe x j r h, h, expW_coe, expW_coe, Real.exp_sub, Real.exp_log hZ]

/-- The exponentiated log-softmax sums to exactly 1 whenever the total weight
is positive. -/
theorem sum_expW_log_softmax {N : ℕ} (x : Fin N → WithBot ℝ)
    (hZ : 0 < ∑ k, expW (x k)) :
    ∑ j, expW (log_softmax x j) = 1 := by
  calc ∑ j, expW (log_softmax x j)
      = ∑ j, expW (x j) / ∑ k, expW (x k) :=
        Finset.sum_congr rfl fun j _ => expW_log_softmax x hZ j
    _ = (∑ j, expW (x j)) / ∑ k, expW (x k) := by rw [Finset.sum_div]
    _ = 1 := div_self (ne_of_gt hZ)

/-- Masked positions receive logit `-inf` in `_one_to_many_logits`
(line 225), whatever the query. -/
theorem one_to_many_logits_masked {B N nH hd : ℕ} (m : AM nH hd)
    (query : Fin B → Fin (nH * hd) → ℝ)
    (K V : Fin nH → Fin B → Fin N → Fin hd → ℝ) (L : Fin B → Fin N → Fin (nH * hd) → ℝ)
    (mask : Fin B → Fin N → Bool) (b : Fin B) (j : Fin N) (h : mask b j = true) :
    (AM.one_to_many_logits m query K V L mask).1 b j = ⊥ := by
  simp [AM.one_to_many_logits, h]

/-- Unmasked positions receive a finite (tanh-clipped) logit in
`_one_to_many_logits`. -/
theorem one_to_many_logits_unmasked {B N nH hd : ℕ} (m : AM nH hd)
    (query : Fin B → Fin (nH * hd) → ℝ)
    (K V : Fin nH → Fin B → Fin N → Fin hd → ℝ) (L : Fin B → Fin N → Fin (nH * hd) → ℝ)
    (mask : Fin B → Fin N → Bool) (b : Fin B) (j : Fin N) (h : mask b j = false) :
    ∃ r : ℝ, (AM.one_to_many_logits m query K V L mask).1 b j = (r : WithBot ℝ) := by
  simp only [AM.one_to_many_logits, h, Bool.false_eq_true, if_false]
  exact ⟨_, rfl⟩

/-- The per-step log-probability of a masked position is `-inf`. -/
theorem get_log_p_raw_masked {B N nH hd : ℕ} (m : AM nH hd)
    (ctx : Fin B → Fin (2 * (nH * hd)) → ℝ) (graphEmb : Fin B → Fin (nH * hd) → ℝ)
    (K V : Fin nH → Fin B → Fin N → Fin hd → ℝ) (L : Fin B → Fin N → Fin (nH * hd) → ℝ)
    (mask : Fin B → Fin N → Bool) (b : Fin B) (j : Fin N) (h : mask b j = true) :
    AM.get_log_p_raw m ctx graphEmb K V L mask b j = ⊥ := by
  refine log_softmax_bot _ _ ?_
  rw [one_to_many_logits_masked m _ K V L mask b j h, divW_bot]

/-- The per-step log-probability of an unmasked position is finite, so its
exponential is strictly positive. -/
theorem get_log_p_raw_unmasked_pos {B N nH hd : ℕ} (m : AM nH hd)
    (ctx : Fin B → Fin (2 * (nH * hd)) → ℝ) (graphEmb : Fin B → Fin (nH * hd) → ℝ)
    (K V : Fin nH → Fin B → Fin N → Fin hd → ℝ) (L : Fin B → Fin N → Fin (nH * hd) → ℝ)
    (mask : Fin B → Fin N → Bool) (b : Fin B) (j : Fin N) (h : mask b j = false) :
    0 < expW (AM.get_log_p_raw m ctx graphEmb K V L mask b j) := by
  obtain ⟨r, hr⟩ := one_to_many_logits_unmasked m (AM.step_query m ctx graphEmb) K V L mask b j h
  have hx : divW ((AM.one_to_many_logits m (AM.step_query m ctx graphEmb) K V L mask).1 b j)
      m.temp = ((r / m.temp : ℝ) : WithBot ℝ) := by rw [hr, divW_coe]
  have : AM.get_log_p_raw m ctx graphEmb K V L mask b j
      = ((r / m.temp
          - Real.log (∑ k, expW (divW
              ((AM.one_to_many_logits m (AM.step_query m ctx graphEmb) K V L mask).1 b k)
              m.temp)) : ℝ) : WithBot ℝ) :=
    log_softmax_coe _ j (r / m.temp) hx
  rw [this, expW_coe]
  exact Real.exp_pos _

/-- C3: for every decode step whose mask is not all-true in the given batch
row, every masked (already-visited) position receives logit `-inf` before the
temperature-scaled log-softmax (whatever the query), consequently its
log-probability is `-inf` and its probability after exponentiation is exactly
`0`, while the probabilities of the unmasked positions sum to exactly `1`. -/
theorem c3_masked_prob_exactly_zero {B N nH hd : ℕ} (m : AM nH hd)
    (ctx : Fin B → Fin (2 * (nH * hd)) → ℝ) (graphEmb : Fin B → Fin (nH * hd) → ℝ)
    (K V : Fin nH → Fin B → Fin N → Fin hd → ℝ) (L : Fin B → Fin N → Fin (nH * hd) → ℝ)
    (mask : Fin B → Fin N → Bool) (b : Fin B)
    (htemp : 0 < m.temp) (hrow : ∃ j, mask b j = false) :
    (∀ (query : Fin B → Fin (nH * hd) → ℝ) (j : Fin N), mask b j = true →
        (AM.one_to_many_logits m query K V L mask).1 b j = ⊥) ∧
    (∀ j : Fin N, mask b j = true →
        AM.get_log_p_raw m ctx graphEmb K V L mask b j = ⊥ ∧
        expW (AM.get_log_p_raw m ctx graphEmb K V L mask b j) = 0) ∧
    ∑ j ∈ Finset.univ.filter (fun j => mask b j = false),
        expW (AM.get_log_p_raw m ctx graphEmb K V L mask b j) = 1 := by
  obtain ⟨j0, hj0⟩ := hrow
  refine ⟨fun query j hj => one_to_many_logits_masked m query K V L mask b j hj,
          fun j hj => ⟨get_log_p_raw_masked m ctx graphEmb K V L mask b j hj, by
            rw [get_log_p_raw_masked m ctx graphEmb K V L mask b j hj, expW_bot]⟩,
          ?_⟩
  have hZ : 0 < ∑ k, expW (divW
      ((AM.one_to_many_logits m (AM.step_query m ctx graphEmb) K V L mask).1 b k) m.temp) := by
    refine Finset.sum_pos' (fun k _ => expW_nonneg _) ⟨j0, Finset.mem_univ _, ?_⟩
    obtain ⟨r, hr⟩ :=
      one_to_many_logits_unmasked m (AM.step_query m ctx graphEmb) K V L mask b j0 hj0
    rw [hr, divW_coe, expW_coe]
    exact Real.exp_pos _
  have hfull : ∑ j, expW (AM.get_log_p_raw m ctx graphEmb K V L mask b j) = 1 :=
    sum_expW_log_softmax _ hZ
  rw [← hfull]
  refine Finset.sum_filter_of_ne fun j _ hne => ?_
  cases hmj : mask b j with
  | false => rfl
  | true =>
    exact absurd (by rw [get_log_p_raw_masked m ctx graphEmb K V L mask b j hmj, expW_bot]) hne

/-! ## Concrete instances used by the closed witness theorems -/

/-- A concrete single-head model with zero weights, greedy decoding, unit
temperature. -/
noncomputable def am11 : AM 1 1 :=
  { W_placeholder := fun _ => 0
    initial_embedder_w := fun _ _ => 0
    initial_embedder_b := fun _ => 0
    project_node_embeddings := fun _ _ => 0
    project_fixed_context := fun _ _ => 0
    project_step_context := fun _ _ => 0
    project_out := fun _ _ => 0
    tanh_clipping := 10
    temp := 1
    decode_type := some "greedy" }

/-- A concrete mask over one batch row and two nodes marking only node 0. -/
def mask12 : Fin 1 → Fin 2 → Bool := fun _ j => decide (j = (0 : Fin 2))

/-- A concrete zero step-context. -/
noncomputable def ctx12 : Fin 1 → Fin (2 * (1 * 1)) → ℝ := fun _ _ => 0

/-- A concrete zero graph embedding. -/
noncomputable def ge12 : Fin 1 → Fin (1 * 1) → ℝ := fun _ _ => 0

/-- A concrete zero glimpse key/value tensor. -/
noncomputable def K12 : Fin 1 → Fin 1 → Fin 2 → Fin 1 → ℝ := fun _ _ _ _ => 0

/-- A concrete zero logit-key tensor. -/
noncomputable def L12 : Fin 1 → Fin 2 → Fin (1 * 1) → ℝ := fun _ _ _ => 0

/-- Witness for C3 at a concrete model, mask, and inputs. -/
theorem c3_witness :
    (0 : ℝ) < am11.temp ∧ mask12 0 1 = false ∧
    ((∀ (query : Fin 1 → Fin (1 * 1) → ℝ) (j : Fin 2), mask12 0 j = true →
        (AM.one_to_many_logits am11 query K12 K12 L12 mask12).1 0 j = ⊥) ∧
     (∀ j : Fin 2, mask12 0 j = true →
        AM.get_log_p_raw am11 ctx12 ge12 K12 K12 L12 mask12 0 j = ⊥ ∧
        expW (AM.get_log_p_raw am11 ctx12 ge12 K12 K12 L12 mask12 0 j) = 0) ∧
     ∑ j ∈ Finset.univ.filter (fun j => mask12 0 j = false),
        expW (AM.get_log_p_raw am11 ctx12 ge12 K12 K12 L12 mask12 0 j) = 1) :=
  ⟨zero_lt_one, rfl,
    c3_masked_prob_exactly_zero am11 ctx12 ge12 K12 K12 L12 mask12 0 zero_lt_one ⟨1, rfl⟩⟩

/-- C10: `set_decode_type` with the temperature argument omitted updates
`decode_type` to the given mode and leaves the stored temperature unchanged;
only a supplied (non-`None`) temperature replaces the temperature used by
subsequent forward calls. -/
theorem c10_set_decode_type_frame {nH hd : ℕ} (m : AM nH hd) (dt : String) :
    (AM.set_decode_type m dt none).decode_type = some dt ∧
    (AM.set_decode_type m dt none).temp = m.temp ∧
    (∀ t : ℝ, (AM.set_decode_type m dt (some t)).decode_type = some dt ∧
        (AM.set_decode_type m dt (some t)).temp = t) :=
  ⟨rfl, rfl, fun _ => ⟨rfl, rfl⟩⟩

/-! ## Lemmas about `_select_node` -/

/-- A successful rejection-resampling returns a batch of unmasked choices. -/
theorem resample_loop_ok_unmasked {B N : ℕ} (rand : ℕ → Fin B → Fin N)
    (mask : Fin B → Fin N → Bool) :
    ∀ fuel t sel, resample_loop rand mask t fuel = .ok sel →
      ∀ b, mask b (sel b) = false := by
  intro fuel
  induction fuel with
  | zero =>
    intro t sel h b
    unfold resample_loop at h
    split_ifs at h with hm
    have h2 : rand t = sel := by simpa using h
    push_neg at hm
    rw [← h2]
    simpa using hm b
  | succ n ih =>
    intro t sel h b
    unfold resample_loop at h
    split_ifs at h with hm
    · exact ih (t + 1) sel h b
    · have h2 : rand t = sel := by simpa using h
      push_neg at hm
      rw [← h2]
      simpa using hm b

/-- Whatever the decode type, a successful free selection is unmasked: the
greedy branch asserts it, the sampling branch rejection-samples until it
holds, and other branches do not return. -/
theorem select_node_ok_unmasked {B N nH hd : ℕ} (m : AM nH hd) (hN : 0 < N)
    (rand : ℕ → Fin B → Fin N) (sfuel : ℕ)
    (probs : Fin B → Fin N → ℝ) (mask : Fin B → Fin N → Bool)
    (sel : Fin B → Fin N)
    (h : select_node m hN rand sfuel probs mask = .ok sel) :
    ∀ b, mask b (sel b) = false := by
  unfold select_node at h
  by_cases hg : m.decode_type = some "greedy"
  · rw [if_pos hg] at h
    split_ifs at h with hm
    have h2 : (fun b => argmaxIdx hN (probs b)) = sel := by simpa using h
    push_neg at hm
    intro b
    rw [← h2]
    simpa using hm b
  · rw [if_neg hg] at h
    by_cases hs : m.decode_type = some "sampling"
    · rw [if_pos hs] at h
      exact resample_loop_ok_unmasked rand mask sfuel 0 sel h
    · rw [if_neg hs] at h
      exact absurd h (by simp)

/-- Greedy selection succeeds with the per-row argmax when no row's argmax is
masked. -/
theorem select_node_greedy_ok {B N nH hd : ℕ} (m : AM nH hd) (hN : 0 < N)
    (rand : ℕ → Fin B → Fin N) (sfuel : ℕ)
    (probs : Fin B → Fin N → ℝ) (mask : Fin B → Fin N → Bool)
    (hdt : m.decode_type = some "greedy")
    (h : ¬∃ b, mask b (argmaxIdx hN (probs b)) = true) :
    select_node m hN rand sfuel probs mask = .ok fun b => argmaxIdx hN (probs b) := by
  unfold select_node
  rw [if_pos hdt, dif_neg h]

/-- C6: in greedy mode `_select_node` returns the per-row argmax of the
probability vector, and when some row's argmax lies on a masked position the
call fails with the infeasibility assertion rather than substituting another
action; any configured decode type other than greedy or sampling (including
the initial `None`) fails with the unsupported-configuration error. -/
theorem c6_select_node_spec {B N nH hd : ℕ} (m : AM nH hd) (hN : 0 < N)
    (rand : ℕ → Fin B → Fin N) (sfuel : ℕ)
    (probs : Fin B → Fin N → ℝ) (mask : Fin B → Fin N → Bool) :
    (m.decode_type = some "greedy" →
      ((¬∃ b, mask b (argmaxIdx hN (probs b)) = true) →
          select_node m hN rand sfuel probs mask = .ok fun b => argmaxIdx hN (probs b)) ∧
      ((∃ b, mask b (argmaxIdx hN (probs b)) = true) →
          select_node m hN rand sfuel probs mask = .error .greedyInfeasible)) ∧
    (∀ dt : String, m.decode_type = some dt → dt ≠ "greedy" → dt ≠ "sampling" →
        select_node m hN rand sfuel probs mask = .error .notImplementedType) ∧
    (m.decode_type = none →
        select_node m hN rand sfuel probs mask = .error .notImplementedType) := by
  refine ⟨fun hdt => ⟨fun hno => select_node_greedy_ok m hN rand sfuel probs mask hdt hno,
      fun hyes => ?_⟩, fun dt hdt hg hs => ?_, fun hdt => ?_⟩
  · unfold select_node
    rw [if_pos hdt, dif_pos hyes]
  · unfold select_node
    rw [if_neg (by simp [hdt, hg]), if_neg (by simp [hdt, hs])]
  · unfold select_node
    rw [if_neg (by simp [hdt]), if_neg (by simp [hdt])]

/-- Constant-false mask over one batch row and two nodes. -/
def maskF : Fin 1 → Fin 2 → Bool := fun _ _ => false

/-- Concrete all-zero probability table. -/
noncomputable def probs12 : Fin 1 → Fin 2 → ℝ := fun _ _ => 0

/-- The concrete model with its decode type still unset (fresh from
construction). -/
noncomputable def am11n : AM 1 1 := { am11 with decode_type := none }

/-- Witness for C6: at a concrete greedy model with nothing masked the argmax
is returned, and at a concrete model with unset decode type the unsupported
error is raised. -/
theorem c6_witness :
    select_node am11 (Nat.succ_pos 1) (fun _ _ => 0) 0 probs12 maskF
      = .ok (fun b => argmaxIdx (Nat.succ_pos 1) (probs12 b)) ∧
    select_node am11n (Nat.succ_pos 1) (fun _ _ => 0) 0 probs12 maskF
      = .error .notImplementedType := by
  constructor
  · exact ((c6_select_node_spec am11 (Nat.succ_pos 1) (fun _ _ => 0) 0 probs12 maskF).1
      rfl).1 (by simp [maskF])
  · exact (c6_select_node_spec am11n (Nat.succ_pos 1) (fun _ _ => 0) 0 probs12 maskF).2.2 rfl

/-! ## Decode-loop invariants -/

theorem TSPState.update_i {B N : ℕ} (s : TSPState B N) (sel : Fin B → Fin N) :
    (s.update sel).i = s.i + 1 := rfl

theorem TSPState.update_visited {B N : ℕ} (s : TSPState B N) (sel : Fin B → Fin N)
    (b : Fin B) (v : Fin N) :
    (s.update sel).visited b v = (s.visited b v || decide (v = sel b)) := rfl

section LoopLemmas

variable {B N nH hd : ℕ} (m : AM nH hd)
  (critic : (Fin B → Fin N → Fin (nH * hd) → ℝ) → (Fin B → Fin N → Bool) →
    (Fin B → Fin (2 * (nH * hd)) → ℝ) → Fin B → ℝ)
  (rand : ℕ → ℕ → Fin B → Fin N) (sfuel : ℕ)
  (points : Fin B → Fin N → Fin 2 → ℝ)
  (emb : Fin B → Fin N → Fin (nH * hd) → ℝ)
  (graphEmb : Fin B → Fin (nH * hd) → ℝ)
  (K V : Fin nH → Fin B → Fin N → Fin hd → ℝ)
  (L : Fin B → Fin N → Fin (nH * hd) → ℝ)
  (hN : 0 < N)

/-- Every accumulator list produced by a successful decode loop has exactly
one entry per executed step. -/
theorem decode_loop_lengths (teacher : Option (ℕ → Fin B → Fin N)) :
    ∀ (k : ℕ) (s : TSPState B N) (hk : s.i + k = N) (prev : Fin B → Fin N)
      (lps : List (Fin B → WithBot ℝ)) (rws vls : List (Fin B → ℝ))
      (trs : List (Fin B → Fin N)),
      AM.decode_loop m critic rand sfuel points emb graphEmb K V L teacher hN
          k s hk prev = .ok (lps, rws, vls, trs) →
      lps.length = k ∧ rws.length = k ∧ vls.length = k ∧ trs.length = k := by
  intro k
  induction k with
  | zero =>
    intro s hk prev lps rws vls trs h
    simp only [AM.decode_loop] at h
    simp only [Except.ok.injEq, Prod.mk.injEq] at h
    obtain ⟨h1, h2, h3, h4⟩ := h
    simp [← h1, ← h2, ← h3, ← h4]
  | succ k ih =>
    intro s hk prev lps rws vls trs h
    simp only [AM.decode_loop] at h
    by_cases hnan : ∀ b, ∃ j, s.get_mask b j = false
    · rw [dif_pos hnan] at h
      split at h
      · simp at h
      · rename_i selected hsel
        by_cases hsq : (torch_squeeze [B, 1, N]).length = 2
        · rw [if_pos hsq] at h
          split at h
          · simp at h
          · rename_i out heq
            simp only [Except.ok.injEq, Prod.mk.injEq] at h
            obtain ⟨h1, h2, h3, h4⟩ := h
            obtain ⟨out1, out2, out3, out4⟩ := out
            obtain ⟨g1, g2, g3, g4⟩ := ih _ _ _ _ _ _ _ heq
            refine ⟨?_, ?_, ?_, ?_⟩ <;>
              simp [← h1, ← h2, ← h3, ← h4, g1, g2, g3, g4]
        · rw [if_neg hsq] at h
          simp at h
    · rw [dif_neg hnan] at h
      simp at h

/-- Free-rollout invariant: a successful decode loop with no teacher tour
appends, per batch row, pairwise-distinct nodes that were all unvisited in the
entry state (each step's selection is feasible and immediately marked
visited). -/
theorem decode_loop_free_inv :
    ∀ (k : ℕ) (s : TSPState B N) (hk : s.i + k = N) (prev : Fin B → Fin N)
      (lps : List (Fin B → WithBot ℝ)) (rws vls : List (Fin B → ℝ))
      (trs : List (Fin B → Fin N)),
      AM.decode_loop m critic rand sfuel points emb graphEmb K V L none hN
          k s hk prev = .ok (lps, rws, vls, trs) →
      ∀ b, (trs.map (fun f => f b)).Nodup ∧
        ∀ v ∈ trs.map (fun f => f b), s.visited b v = false := by
  intro k
  induction k with
  | zero =>
    intro s hk prev lps rws vls trs h b
    simp only [AM.decode_loop] at h
    simp only [Except.ok.injEq, Prod.mk.injEq] at h
    obtain ⟨-, -, -, h4⟩ := h
    simp [← h4]
  | succ k ih =>
    intro s hk prev lps rws vls trs h b
    simp only [AM.decode_loop] at h
    by_cases hnan : ∀ b, ∃ j, s.get_mask b j = false
    · rw [dif_pos hnan] at h
      split at h
      · simp at h
      · rename_i selected hsel
        by_cases hsq : (torch_squeeze [B, 1, N]).length = 2
        · rw [if_pos hsq] at h
          split at h
          · simp at h
          · rename_i out heq
            simp only [Except.ok.injEq, Prod.mk.injEq] at h
            obtain ⟨-, -, -, h4⟩ := h
            have hunmask : ∀ b2, s.get_mask b2 (selected b2) = false :=
              select_node_ok_unmasked m hN (rand s.i) sfuel _ s.get_mask selected hsel
            have hrec := ih _ _ _ _ _ _ _ heq b
            obtain ⟨hnd, hdisj⟩ := hrec
            have hselnotin : selected b ∉ out.2.2.2.map (fun f => f b) := by
              intro hmem
              have := hdisj _ hmem
              rw [TSPState.update_visited] at this
              simp at this
            constructor
            · rw [← h4]
              simp only [List.map_cons, List.nodup_cons]
              exact ⟨hselnotin, hnd⟩
            · rw [← h4]
              simp only [List.map_cons, List.mem_cons]
              rintro v (rfl | hv)
              · exact hunmask b
              · have := hdisj v hv
                rw [TSPState.update_visited] at this
                exact (Bool.or_eq_false_iff.mp this).1
        · rw [if_neg hsq] at h
          simp at h
    · rw [dif_neg hnan] at h
      simp at h

/-- C1: for every instance and every decode mode, a completed free rollout of
`decoder` (no teacher tour) returns a `tours` tensor in which each batch row
is a permutation of the node indices: no node appears twice and none is
omitted.  The external TSP state is the spec-modelled one, whose mask marks
exactly the already-selected nodes. -/
theorem c1_tours_permutation (res : RolloutResult B N)
    (h : AM.decoder m critic rand sfuel points emb none hN = .ok res) :
    ∀ b, (res.tours.map (fun f => f b)).Nodup ∧
      ∀ v : Fin N, v ∈ res.tours.map (fun f => f b) := by
  simp only [AM.decoder] at h
  split at h
  · simp at h
  · rename_i out hloop
    split at h
    · rename_i last first hlast hhead
      simp only [Except.ok.injEq] at h
      subst h
      intro b
      obtain ⟨-, -, -, hlen⟩ :=
        decode_loop_lengths m critic rand sfuel points emb _ _ _ _ hN none
          N _ _ _ _ _ _ _ hloop
      have hinv := decode_loop_free_inv m critic rand sfuel points emb _ _ _ _ hN
          N _ _ _ _ _ _ _ hloop b
      obtain ⟨hnd, -⟩ := hinv
      refine ⟨hnd, ?_⟩
      have hlenrow : (out.2.2.2.map (fun f => f b)).length = N := by
        rw [List.length_map, hlen]
      have hcard : (out.2.2.2.map (fun f => f b)).toFinset.card = N := by
        rw [List.toFinset_card_of_nodup hnd, hlenrow]
      have huniv : (out.2.2.2.map (fun f => f b)).toFinset = Finset.univ :=
        Finset.eq_univ_of_card _ (by rw [hcard, Fintype.card_fin])
      intro v
      rw [← List.mem_toFinset, huniv]
      exact Finset.mem_univ v
    · simp at h

/-- Marking a previously unvisited selection grows the per-row visited count
by exactly one. -/
theorem visited_count_update (s : TSPState B N) (sel : Fin B → Fin N) (b : Fin B)
    (hc : (Finset.univ.filter fun v => s.visited b v = true).card = s.i)
    (hun : s.visited b (sel b) = false) :
    (Finset.univ.filter fun v => (s.update sel).visited b v = true).card = s.i + 1 := by
  have hset : (Finset.univ.filter fun v => (s.update sel).visited b v = true)
      = insert (sel b) (Finset.univ.filter fun v => s.visited b v = true) := by
    ext v
    simp [TSPState.update_visited, or_comm]
  rw [hset, Finset.card_insert_of_not_mem (by simp [hun]), hc]

/-- While the per-row visited count is below `N`, every row still has an
unmasked node (the no-NaN assert of `_get_log_p` cannot fire). -/
theorem nan_guard_of_count (s : TSPState B N)
    (hc : ∀ b, (Finset.univ.filter fun v => s.visited b v = true).card = s.i)
    (hlt : s.i < N) :
    ∀ b, ∃ j, s.get_mask b j = false := by
  intro b
  by_contra hno
  push_neg at hno
  have hall : ∀ j, s.visited b j = true := by
    intro j
    have := hno j
    cases hb : s.visited b j
    · exact absurd hb (by simpa [TSPState.get_mask] using hno j)
    · rfl
  have hfull : (Finset.univ.filter fun v => s.visited b v = true) = Finset.univ := by
    refine Finset.filter_true_of_mem fun v _ => hall v
  have := hc b
  rw [hfull, Finset.card_univ, Fintype.card_fin] at this
  omega

/-- With the spec-modelled mask, greedy decoding can never pick a masked
node: masked probabilities are exactly `0` while some unmasked probability is
strictly positive, so the argmax is unmasked and the feasibility assert of
`_select_node` passes. -/
theorem decode_loop_greedy_ok (hdt : m.decode_type = some "greedy")
    (hsq : (torch_squeeze [B, 1, N]).length = 2) :
    ∀ (k : ℕ) (s : TSPState B N) (hk : s.i + k = N) (prev : Fin B → Fin N),
      (∀ b, (Finset.univ.filter fun v => s.visited b v = true).card = s.i) →
      ∃ out, AM.decode_loop m critic rand sfuel points emb graphEmb K V L none hN
        k s hk prev = .ok out := by
  intro k
  induction k with
  | zero =>
    intro s hk prev hc
    exact ⟨([], [], [], []), by simp [AM.decode_loop]⟩
  | succ k ih =>
    intro s hk prev hc
    have hlt : s.i < N := by omega
    have hnan : ∀ b, ∃ j, s.get_mask b j = false := nan_guard_of_count s hc hlt
    have hargmax : ∀ b, s.get_mask b (argmaxIdx hN (fun j =>
        expW (AM.get_log_p_raw m (AM.get_parallel_step_context m emb s)
          graphEmb K V L s.get_mask b j))) = false := by
      intro b
      obtain ⟨j0, hj0⟩ := hnan b
      by_contra hmask
      rw [Bool.not_eq_false] at hmask
      have h0 : expW (AM.get_log_p_raw m (AM.get_parallel_step_context m emb s)
          graphEmb K V L s.get_mask b (argmaxIdx hN (fun j =>
            expW (AM.get_log_p_raw m (AM.get_parallel_step_context m emb s)
              graphEmb K V L s.get_mask b j)))) = 0 := by
        rw [get_log_p_raw_masked m _ graphEmb K V L s.get_mask b _ hmask, expW_bot]
      have hpos : 0 < expW (AM.get_log_p_raw m (AM.get_parallel_step_context m emb s)
          graphEmb K V L s.get_mask b j0) :=
        get_log_p_raw_unmasked_pos m _ graphEmb K V L s.get_mask b j0 hj0
      have hle := le_argmaxIdx hN (fun j =>
        expW (AM.get_log_p_raw m (AM.get_parallel_step_context m emb s)
          graphEmb K V L s.get_mask b j)) j0
      simp only [h0] at hle
      exact absurd (lt_of_lt_of_le hpos hle) (lt_irrefl 0)
    have hsel := select_node_greedy_ok m hN (rand s.i) sfuel
      (fun b j => expW (AM.get_log_p_raw m (AM.get_parallel_step_context m emb s)
        graphEmb K V L s.get_mask b j)) s.get_mask hdt (by
          rintro ⟨b, hb⟩
          rw [hargmax b] at hb
          exact absurd hb (by simp))
    have hc2 : ∀ b, (Finset.univ.filter fun v =>
        (s.update fun b2 => argmaxIdx hN (fun j =>
          expW (AM.get_log_p_raw m (AM.get_parallel_step_context m emb s)
            graphEmb K V L s.get_mask b2 j))).visited b v = true).card = s.i + 1 :=
      fun b => visited_count_update s _ b (hc b) (hargmax b)
    obtain ⟨out, hout⟩ := ih (s.update fun b2 => argmaxIdx hN (fun j =>
        expW (AM.get_log_p_raw m (AM.get_parallel_step_context m emb s)
          graphEmb K V L s.get_mask b2 j)))
      (by simp only [TSPState.update_i]; omega) (fun b2 => argmaxIdx hN (fun j =>
        expW (AM.get_log_p_raw m (AM.get_parallel_step_context m emb s)
          graphEmb K V L s.get_mask b2 j))) hc2
    cases hres : AM.decode_loop m critic rand sfuel points emb graphEmb K V L none hN
        (k + 1) s hk prev with
    | ok out2 => exact ⟨out2, rfl⟩
    | error e =>
      exfalso
      simp only [AM.decode_loop] at hres
      rw [dif_pos hnan] at hres
      rw [hsel] at hres
      simp only [hsq, if_true] at hres
      rw [hout] at hres
      simp at hres

/-- A greedy free rollout always completes: every guard of the decode loop
passes and the assembled rollout result is returned. -/
theorem decoder_greedy_ok (hdt : m.decode_type = some "greedy")
    (hsq : (torch_squeeze [B, 1, N]).length = 2) :
    ∃ res, AM.decoder m critic rand sfuel points emb none hN = .ok res := by
  obtain ⟨out, hout⟩ := decode_loop_greedy_ok m critic rand sfuel points emb
    (AM.graphEmbedding m emb) (AM.key_glimpse m emb) (AM.val_glimpse m emb)
    (AM.logit_key m emb) hN hdt hsq N (TSPState.make_state hN)
    (by simp [TSPState.make_state]) (fun _ => ⟨0, hN⟩)
    (by intro b; simp [TSPState.make_state])
  obtain ⟨-, -, -, hlen⟩ := decode_loop_lengths m critic rand sfuel points emb
    (AM.graphEmbedding m emb) (AM.key_glimpse m emb) (AM.val_glimpse m emb)
    (AM.logit_key m emb) hN none N (TSPState.make_state hN)
    (by simp [TSPState.make_state]) (fun _ => ⟨0, hN⟩)
    out.1 out.2.1 out.2.2.1 out.2.2.2 hout
  have hne : out.2.2.2 ≠ [] := by
    intro h0
    rw [h0] at hlen
    simp at hlen
    omega
  have hhead : ∃ a, out.2.2.2.head? = some a := by
    cases hl : out.2.2.2 with
    | nil => exact absurd hl hne
    | cons a t => exact ⟨a, rfl⟩
  obtain ⟨first, hfirst⟩ := hhead
  have hlast : ∃ x, out.2.2.2.getLast? = some x :=
    ⟨out.2.2.2.getLast hne, List.getLast?_eq_getLast _ hne⟩
  obtain ⟨last, hlast⟩ := hlast
  refine ⟨{ log_ps := out.1
            instant_rewards := out.2.1
            values := out.2.2.1
            cost := get_costs points out.2.2.2
            reward_final := fun b => -(AM.calc_distance points last first b)
            tours := out.2.2.2 }, ?_⟩
  simp only [AM.decoder]
  rw [hout]
  simp only [hlast, hfirst]

/-- Greedy selection never consults the random stream or the resampling
budget. -/
theorem select_node_greedy_rand_irrel (hdt : m.decode_type = some "greedy")
    (r1 r2 : ℕ → Fin B → Fin N) (f1 f2 : ℕ)
    (probs : Fin B → Fin N → ℝ) (mask : Fin B → Fin N → Bool) :
    select_node m hN r1 f1 probs mask = select_node m hN r2 f2 probs mask := by
  unfold select_node
  rw [if_pos hdt, if_pos hdt]

/-- In greedy mode the decode loop is independent of the random stream and
the resampling budget. -/
theorem decode_loop_greedy_rand_irrel (hdt : m.decode_type = some "greedy")
    (rand2 : ℕ → ℕ → Fin B → Fin N) (sfuel2 : ℕ) :
    ∀ (k : ℕ) (s : TSPState B N) (hk : s.i + k = N) (prev : Fin B → Fin N),
      AM.decode_loop m critic rand sfuel points emb graphEmb K V L none hN k s hk prev
        = AM.decode_loop m critic rand2 sfuel2 points emb graphEmb K V L none hN k s hk prev := by
  intro k
  induction k with
  | zero => intro s hk prev; rfl
  | succ k ih =>
    intro s hk prev
    simp only [AM.decode_loop]
    by_cases hnan : ∀ b, ∃ j, s.get_mask b j = false
    · rw [dif_pos hnan, dif_pos hnan]
      rw [select_node_greedy_rand_irrel m hN hdt (rand s.i) (rand2 s.i) sfuel sfuel2
        _ s.get_mask]
      simp only [ih]
    · rw [dif_neg hnan, dif_neg hnan]

/-- In greedy mode the whole decoder is independent of the random stream and
the resampling budget. -/
theorem decoder_greedy_rand_irrel (hdt : m.decode_type = some "greedy")
    (rand2 : ℕ → ℕ → Fin B → Fin N) (sfuel2 : ℕ) :
    AM.decoder m critic rand sfuel points emb none hN
      = AM.decoder m critic rand2 sfuel2 points emb none hN := by
  simp only [AM.decoder]
  rw [decode_loop_greedy_rand_irrel m critic rand sfuel points emb
    (AM.graphEmbedding m emb) (AM.key_glimpse m emb) (AM.val_glimpse m emb)
    (AM.logit_key m emb) hN hdt rand2 sfuel2 N (TSPState.make_state hN)
    (by simp [TSPState.make_state]) (fun _ => ⟨0, hN⟩)]

/-- C7: greedy decoding is deterministic — two `forward` calls with identical
input and identical model parameters in `decode_type = "greedy"` mode produce
identical outputs (in particular identical tours), whatever the random
sources supplied to the two runs. -/
theorem c7_greedy_deterministic
    (enc : (Fin B → Fin N → Fin (nH * hd) → ℝ) → (Fin B → Fin N → Fin (nH * hd) → ℝ))
    (rand2 : ℕ → ℕ → Fin B → Fin N) (sfuel2 : ℕ)
    (input : Fin B → Fin N → Fin 2 → ℝ)
    (hdt : m.decode_type = some "greedy") :
    AM.forward m enc critic rand sfuel input none hN
      = AM.forward m enc critic rand2 sfuel2 input none hN := by
  simp only [AM.forward]
  exact decoder_greedy_rand_irrel m critic rand sfuel input _ hN hdt rand2 sfuel2

/-- Specification of the per-step instant rewards along a row: `0` at step 0,
then the negative Euclidean distance from the previously selected node to the
currently selected one (in the orientation of `calc_distance(input, current,
previous)`). -/
noncomputable def step_rewards {N : ℕ} (pts : Fin N → Fin 2 → ℝ) :
    ℕ → Fin N → List (Fin N) → List ℝ
  | _, _, [] => []
  | i, pr, x :: rest =>
    (if i = 0 then 0 else -(euclid (pts x) (pts pr))) :: step_rewards pts (i + 1) x rest

theorem getD_cons_succ2 {α : Type} (a : α) (l : List α) (n : ℕ) (d : α) :
    (a :: l).getD (n + 1) d = l.getD n d := rfl

theorem getD_map_row {β : Type} (l : List (Fin B → β)) (b : Fin B) (n : ℕ) (d : Fin B → β) :
    (l.getD n d) b = (l.map (fun f => f b)).getD n (d b) := by
  induction l generalizing n with
  | nil => rfl
  | cons a t ih =>
    cases n with
    | zero => rfl
    | succ n2 => exact ih n2

/-- Away from step 0, the step rewards are the pairwise negative distances of
consecutive entries of `previous :: row`. -/
theorem step_rewards_pos {N2 : ℕ} (pts : Fin N2 → Fin 2 → ℝ) :
    ∀ (row : List (Fin N2)) (i : ℕ) (pr : Fin N2), i ≠ 0 →
      step_rewards pts i pr row
        = List.zipWith (fun u v => -(euclid (pts v) (pts u))) (pr :: row) row := by
  intro row
  induction row with
  | nil => intro i pr _; rfl
  | cons x rest ih =>
    intro i pr hi
    simp only [step_rewards, List.zipWith]
    rw [if_neg hi]
    congr 1
    exact ih (i + 1) x (by omega)

/-- Step rewards starting at step 0: a leading `0` followed by the pairwise
negative distances of consecutive selected nodes. -/
theorem step_rewards_zero {N2 : ℕ} (pts : Fin N2 → Fin 2 → ℝ) (pr x : Fin N2)
    (rest : List (Fin N2)) :
    step_rewards pts 0 pr (x :: rest)
      = 0 :: List.zipWith (fun u v => -(euclid (pts v) (pts u))) (x :: rest) rest := by
  simp only [step_rewards, if_pos rfl]
  congr 1
  exact step_rewards_pos pts rest 1 x one_ne_zero

theorem zipWith_consec_getD {α β : Type} (g : α → α → β) (d : α) (db : β) :
    ∀ (rest : List α) (x : α) (i : ℕ), i < rest.length →
      (List.zipWith g (x :: rest) rest).getD i db
        = g ((x :: rest).getD i d) (rest.getD i d) := by
  intro rest
  induction rest with
  | nil => intro x i h; simp at h
  | cons y t ih =>
    intro x i h
    cases i with
    | zero => rfl
    | succ i2 => exact ih y i2 (by simpa using h)

/-- The instant rewards accumulated by a successful decode loop follow
`step_rewards` along each batch row, starting from the entry step counter and
previous selection. -/
theorem decode_loop_rewards_trace (teacher : Option (ℕ → Fin B → Fin N)) :
    ∀ (k : ℕ) (s : TSPState B N) (hk : s.i + k = N) (prev : Fin B → Fin N)
      (lps : List (Fin B → WithBot ℝ)) (rws vls : List (Fin B → ℝ))
      (trs : List (Fin B → Fin N)),
      AM.decode_loop m critic rand sfuel points emb graphEmb K V L teacher hN
          k s hk prev = .ok (lps, rws, vls, trs) →
      ∀ b, rws.map (fun f => f b)
        = step_rewards (points b) s.i (prev b) (trs.map (fun f => f b)) := by
  intro k
  induction k with
  | zero =>
    intro s hk prev lps rws vls trs h b
    simp only [AM.decode_loop] at h
    simp only [Except.ok.injEq, Prod.mk.injEq] at h
    obtain ⟨-, h2, -, h4⟩ := h
    rw [← h2, ← h4]
    rfl
  | succ k ih =>
    intro s hk prev lps rws vls trs h b
    simp only [AM.decode_loop] at h
    by_cases hnan : ∀ b, ∃ j, s.get_mask b j = false
    · rw [dif_pos hnan] at h
      split at h
      · simp at h
      · rename_i selected hsel
        by_cases hsq : (torch_squeeze [B, 1, N]).length = 2
        · rw [if_pos hsq] at h
          split at h
          · simp at h
          · rename_i out heq
            simp only [Except.ok.injEq, Prod.mk.injEq] at h
            obtain ⟨-, h2, -, h4⟩ := h
            rw [← h2, ← h4]
            simp only [List.map_cons, step_rewards]
            congr 1
            · by_cases h0 : s.i = 0 <;> simp [h0, AM.calc_distance]
            · exact ih _ _ _ _ _ _ _ heq b
        · rw [if_neg hsq] at h
          simp at h
    · rw [dif_neg hnan] at h
      simp at h

/-- C4: in every completed rollout the instant reward appended at step 0 is
the zero vector; for every step `i > 0` it equals the negative Euclidean
distance between the node selected at step `i-1` and the node selected at
step `i` in each batch row; and the closing reward `reward_final` equals the
negative Euclidean distance between the last-selected and the first-selected
node of the row. -/
theorem c4_instant_rewards (teacher : Option (ℕ → Fin B → Fin N))
    (res : RolloutResult B N)
    (h : AM.decoder m critic rand sfuel points emb teacher hN = .ok res) :
    res.instant_rewards.length = N ∧ res.tours.length = N ∧
    (∀ b, res.instant_rewards.getD 0 (fun _ => 1) b = 0) ∧
    (∀ b, ∃ x rest, res.tours.map (fun f => f b) = x :: rest ∧
      res.instant_rewards.map (fun f => f b)
        = 0 :: List.zipWith (fun u v => -(euclid (points b v) (points b u)))
            (x :: rest) rest) ∧
    (∀ (b : Fin B) (i : ℕ), i + 1 < N →
      res.instant_rewards.getD (i + 1) (fun _ => 0) b
        = -(euclid (points b (res.tours.getD (i + 1) (fun _ => ⟨0, hN⟩) b))
            (points b (res.tours.getD i (fun _ => ⟨0, hN⟩) b)))) ∧
    (∀ b, ∃ first last, res.tours.head? = some first ∧
      res.tours.getLast? = some last ∧
      res.reward_final b = -(euclid (points b (last b)) (points b (first b)))) := by
  simp only [AM.decoder] at h
  split at h
  · simp at h
  · rename_i out hloop
    split at h
    · rename_i last first hlast hfirst
      simp only [Except.ok.injEq] at h
      have ht : res.tours = out.2.2.2 := by rw [← h]
      have hirw : res.instant_rewards = out.2.1 := by rw [← h]
      have hrf : res.reward_final = fun b => -(AM.calc_distance points last first b) := by
        rw [← h]
      obtain ⟨-, hlen2, -, hlen4⟩ := decode_loop_lengths m critic rand sfuel points emb
        (AM.graphEmbedding m emb) (AM.key_glimpse m emb) (AM.val_glimpse m emb)
        (AM.logit_key m emb) hN teacher N (TSPState.make_state hN)
        (by simp [TSPState.make_state]) (fun _ => ⟨0, hN⟩)
        out.1 out.2.1 out.2.2.1 out.2.2.2 hloop
      have htrace := decode_loop_rewards_trace m critic rand sfuel points emb
        (AM.graphEmbedding m emb) (AM.key_glimpse m emb) (AM.val_glimpse m emb)
        (AM.logit_key m emb) hN teacher N (TSPState.make_state hN)
        (by simp [TSPState.make_state]) (fun _ => ⟨0, hN⟩)
        out.1 out.2.1 out.2.2.1 out.2.2.2 hloop
      have hrowlen : ∀ b, (out.2.2.2.map (fun f => f b)).length = N := by
        intro b
        rw [List.length_map, hlen4]
      have hzip : ∀ b, ∃ x rest, out.2.2.2.map (fun f => f b) = x :: rest ∧
          out.2.1.map (fun f => f b)
            = 0 :: List.zipWith (fun u v => -(euclid (points b v) (points b u)))
                (x :: rest) rest := by
        intro b
        cases hl : out.2.2.2.map (fun f => f b) with
        | nil =>
          exfalso
          have := hrowlen b
          rw [hl] at this
          simp at this
          omega
        | cons x rest =>
          refine ⟨x, rest, rfl, ?_⟩
          have hstep := htrace b
          rw [hl] at hstep
          rw [hstep]
          exact step_rewards_zero (points b) _ x rest
      refine ⟨?_, ?_, ?_, ?_, ?_, ?_⟩
      · rw [hirw]; exact hlen2
      · rw [ht]; exact hlen4
      · intro b
        obtain ⟨x, rest, -, hr⟩ := hzip b
        rw [hirw]
        cases hc : out.2.1 with
        | nil => rw [hc] at hr; simp at hr
        | cons g gt =>
          rw [hc] at hr
          simp only [List.map_cons, List.cons.injEq] at hr
          exact hr.1
      · intro b
        obtain ⟨x, rest, h1, h2⟩ := hzip b
        exact ⟨x, rest, by rw [ht]; exact h1, by rw [hirw]; exact h2⟩
      · intro b i hi
        obtain ⟨x, rest, h1, h2⟩ := hzip b
        have hrlen : rest.length = N - 1 := by
          have := hrowlen b
          rw [h1] at this
          simp at this
          omega
        have hi2 : i < rest.length := by omega
        rw [hirw, ht]
        rw [getD_map_row out.2.1 b (i + 1) (fun _ => 0)]
        rw [getD_map_row out.2.2.2 b (i + 1) (fun _ => ⟨0, hN⟩)]
        rw [getD_map_row out.2.2.2 b i (fun _ => ⟨0, hN⟩)]
        rw [h1, h2]
        rw [getD_cons_succ2]
        rw [zipWith_consec_getD (fun u v => -(euclid (points b v) (points b u)))
          (⟨0, hN⟩ : Fin N) 0 rest x i hi2]
        rw [getD_cons_succ2]
      · intro b
        refine ⟨first, last, by rw [ht]; exact hfirst, by rw [ht]; exact hlast, ?_⟩
        rw [hrf]
        simp [AM.calc_distance]
    · simp at h

/-- State reached after replaying `j` teacher-forced steps from `s`. -/
def iter_state {B2 N2 : ℕ} (tt : ℕ → Fin B2 → Fin N2) (s : TSPState B2 N2) :
    ℕ → TSPState B2 N2
  | 0 => s
  | j + 1 => (iter_state tt s j).update fun b => tt (iter_state tt s j).i b

theorem iter_state_i {B2 N2 : ℕ} (tt : ℕ → Fin B2 → Fin N2) (s : TSPState B2 N2) :
    ∀ j, (iter_state tt s j).i = s.i + j := by
  intro j
  induction j with
  | zero => rfl
  | succ j2 ih =>
    simp only [iter_state, TSPState.update_i, ih]
    omega

theorem iter_state_shift {B2 N2 : ℕ} (tt : ℕ → Fin B2 → Fin N2) (s : TSPState B2 N2) :
    ∀ j, iter_state tt (s.update fun b => tt s.i b) j = iter_state tt s (j + 1) := by
  intro j
  induction j with
  | zero => rfl
  | succ j2 ih => simp only [iter_state, ih]

/-- Tours and per-step log-probabilities of a successful teacher-forced
decode loop: the tours replay the teacher columns, and each log-probability
row is the policy's log-probability table of the replay state indexed at the
forced node. -/
theorem decode_loop_teacher_trace (tt : ℕ → Fin B → Fin N) :
    ∀ (k : ℕ) (s : TSPState B N) (hk : s.i + k = N) (prev : Fin B → Fin N)
      (lps : List (Fin B → WithBot ℝ)) (rws vls : List (Fin B → ℝ))
      (trs : List (Fin B → Fin N)),
      AM.decode_loop m critic rand sfuel points emb graphEmb K V L (some tt) hN
          k s hk prev = .ok (lps, rws, vls, trs) →
      trs = (List.range k).map (fun j => fun b => tt (s.i + j) b) ∧
      lps = (List.range k).map (fun j => fun b =>
        AM.get_log_p_raw m (AM.get_parallel_step_context m emb (iter_state tt s j))
          graphEmb K V L (iter_state tt s j).get_mask b (tt (s.i + j) b)) := by
  intro k
  induction k with
  | zero =>
    intro s hk prev lps rws vls trs h
    simp only [AM.decode_loop] at h
    simp only [Except.ok.injEq, Prod.mk.injEq] at h
    obtain ⟨h1, -, -, h4⟩ := h
    simp [← h1, ← h4]
  | succ k ih =>
    intro s hk prev lps rws vls trs h
    simp only [AM.decode_loop] at h
    by_cases hnan : ∀ b, ∃ j, s.get_mask b j = false
    · rw [dif_pos hnan] at h
      by_cases hsq : (torch_squeeze [B, 1, N]).length = 2
      · rw [if_pos hsq] at h
        split at h
        · simp at h
        · rename_i out heq
          simp only [Except.ok.injEq, Prod.mk.injEq] at h
          obtain ⟨h1, -, -, h4⟩ := h
          obtain ⟨ih1, ih2⟩ := ih _ _ _ _ _ _ _ heq
          constructor
          · rw [← h4, ih1, List.range_succ_eq_map]
            simp only [List.map_cons, List.map_map]
            have hfun : (fun j => fun b => tt ((s.update fun b2 => tt s.i b2).i + j) b)
                = ((fun j => fun b => tt (s.i + j) b) ∘ Nat.succ) := by
              funext j b
              simp only [Function.comp_apply, TSPState.update_i, Nat.succ_eq_add_one]
              congr 1
              omega
            rw [hfun]
            rfl
          · rw [← h1, ih2, List.range_succ_eq_map]
            simp only [List.map_cons, List.map_map]
            have hfun : (fun j => fun b =>
                  AM.get_log_p_raw m
                    (AM.get_parallel_step_context m emb
                      (iter_state tt (s.update fun b2 => tt s.i b2) j))
                    graphEmb K V L
                    (iter_state tt (s.update fun b2 => tt s.i b2) j).get_mask b
                    (tt ((s.update fun b2 => tt s.i b2).i + j) b))
                = ((fun j => fun b =>
                    AM.get_log_p_raw m
                      (AM.get_parallel_step_context m emb (iter_state tt s j))
                      graphEmb K V L (iter_state tt s j).get_mask b
                      (tt (s.i + j) b)) ∘ Nat.succ) := by
              funext j b
              simp only [Function.comp_apply, TSPState.update_i, Nat.succ_eq_add_one]
              rw [iter_state_shift]
              rw [show s.i + 1 + j = s.i + (j + 1) from by omega]
            rw [hfun]
            rfl
      · rw [if_neg hsq] at h
        simp at h
    · rw [dif_neg hnan] at h
      simp at h

/-- A teacher-forced decode loop whose teacher columns are injective per row
always completes: every selection is fresh, so the visited count tracks the
step counter and every guard passes. -/
theorem decode_loop_teacher_ok (tt : ℕ → Fin B → Fin N)
    (hsq : (torch_squeeze [B, 1, N]).length = 2)
    (hinj : ∀ (b : Fin B) (i j : ℕ), i < N → j < N → tt i b = tt j b → i = j) :
    ∀ (k : ℕ) (s : TSPState B N) (hk : s.i + k = N) (prev : Fin B → Fin N),
      (∀ b, (Finset.univ.filter fun v => s.visited b v = true).card = s.i) →
      (∀ (b : Fin B) (j : ℕ), s.i ≤ j → j < N → s.visited b (tt j b) = false) →
      ∃ out, AM.decode_loop m critic rand sfuel points emb graphEmb K V L (some tt) hN
        k s hk prev = .ok out := by
  intro k
  induction k with
  | zero =>
    intro s hk prev hc hfut
    exact ⟨([], [], [], []), by simp [AM.decode_loop]⟩
  | succ k ih =>
    intro s hk prev hc hfut
    have hlt : s.i < N := by omega
    have hnan : ∀ b, ∃ j, s.get_mask b j = false := nan_guard_of_count s hc hlt
    have hc2 : ∀ b, (Finset.univ.filter fun v =>
        (s.update fun b2 => tt s.i b2).visited b v = true).card = s.i + 1 :=
      fun b => visited_count_update s _ b (hc b) (hfut b s.i le_rfl hlt)
    have hfut2 : ∀ (b : Fin B) (j : ℕ), (s.update fun b2 => tt s.i b2).i ≤ j → j < N →
        (s.update fun b2 => tt s.i b2).visited b (tt j b) = false := by
      intro b j hj hjN
      rw [TSPState.update_i] at hj
      rw [TSPState.update_visited]
      have h1 : s.visited b (tt j b) = false := hfut b j (by omega) hjN
      have h2 : tt j b ≠ tt s.i b := by
        intro heq
        have := hinj b j s.i hjN hlt heq
        omega
      simp [h1, h2]
    obtain ⟨out, hout⟩ := ih (s.update fun b2 => tt s.i b2)
      (by simp only [TSPState.update_i]; omega) (fun b2 => tt s.i b2) hc2 hfut2
    cases hres : AM.decode_loop m critic rand sfuel points emb graphEmb K V L (some tt) hN
        (k + 1) s hk prev with
    | ok out2 => exact ⟨out2, rfl⟩
    | error e =>
      exfalso
      simp only [AM.decode_loop] at hres
      rw [dif_pos hnan] at hres
      rw [if_pos hsq] at hres
      rw [hout] at hres
      simp at hres

/-- A teacher-forced decode loop never consults the action selector: it is
independent of the random stream, the resampling budget, and the configured
decode type. -/
theorem decode_loop_teacher_conf_irrel (tt : ℕ → Fin B → Fin N)
    (rand2 : ℕ → ℕ → Fin B → Fin N) (sfuel2 : ℕ) (dt2 : Option String) :
    ∀ (k : ℕ) (s : TSPState B N) (hk : s.i + k = N) (prev : Fin B → Fin N),
      AM.decode_loop { m with decode_type := dt2 } critic rand2 sfuel2 points emb
          graphEmb K V L (some tt) hN k s hk prev
        = AM.decode_loop m critic rand sfuel points emb graphEmb K V L (some tt) hN
            k s hk prev := by
  intro k
  induction k with
  | zero => intro s hk prev; rfl
  | succ k ih =>
    intro s hk prev
    simp only [AM.decode_loop]
    by_cases hnan : ∀ b, ∃ j, s.get_mask b j = false
    · rw [dif_pos hnan, dif_pos hnan]
      simp only [ih]
      rfl
    · rw [dif_neg hnan, dif_neg hnan]

/-- Per-step log-probability table of the policy along the replay of a
teacher tour from the initial state (the table `_get_log_p` computes at step
`j` of a teacher-forced rollout). -/
noncomputable def teacher_step_log_p (tt : ℕ → Fin B → Fin N) (j : ℕ) :
    Fin B → Fin N → WithBot ℝ :=
  AM.get_log_p_raw m
    (AM.get_parallel_step_context m emb (iter_state tt (TSPState.make_state hN) j))
    (AM.graphEmbedding m emb) (AM.key_glimpse m emb) (AM.val_glimpse m emb)
    (AM.logit_key m emb)
    (iter_state tt (TSPState.make_state hN) j).get_mask

/-- C2: supplying a reference tour that is a permutation per batch row, on an
instance with `B ≥ 2` and `N ≥ 2`, makes the decoder reproduce exactly that
tour in the output `tours`, with each returned `log_p` row being the policy's
log-probability table of that step indexed at the forced node; the run never
consults the action selector (it is independent of the random stream, the
resampling budget, and the configured decode type). -/
theorem c2_teacher_forcing (tt : ℕ → Fin B → Fin N)
    (hB : B ≠ 1) (hNN : N ≠ 1)
    (hinj : ∀ (b : Fin B) (i j : ℕ), i < N → j < N → tt i b = tt j b → i = j) :
    ∃ res : RolloutResult B N,
      AM.decoder m critic rand sfuel points emb (some tt) hN = .ok res ∧
      res.tours = (List.range N).map (fun j => fun b => tt j b) ∧
      res.log_ps = (List.range N).map (fun j => fun b =>
        teacher_step_log_p m emb hN tt j b (tt j b)) ∧
      (∀ (rand2 : ℕ → ℕ → Fin B → Fin N) (sfuel2 : ℕ) (dt2 : Option String),
        AM.decoder { m with decode_type := dt2 } critic rand2 sfuel2 points emb
            (some tt) hN
          = AM.decoder m critic rand sfuel points emb (some tt) hN) := by
  have hsq : (torch_squeeze [B, 1, N]).length = 2 := by
    have h1 : (B != 1) = true := by simpa using hB
    have h2 : (N != 1) = true := by simpa using hNN
    simp [torch_squeeze, List.filter, h1, h2]
  obtain ⟨out, hout⟩ := decode_loop_teacher_ok m critic rand sfuel points emb
    (AM.graphEmbedding m emb) (AM.key_glimpse m emb) (AM.val_glimpse m emb)
    (AM.logit_key m emb) hN tt hsq hinj N (TSPState.make_state hN)
    (by simp [TSPState.make_state]) (fun _ => ⟨0, hN⟩)
    (by intro b; simp [TSPState.make_state])
    (by intro b j _ _; simp [TSPState.make_state])
  obtain ⟨-, -, -, hlen⟩ := decode_loop_lengths m critic rand sfuel points emb
    (AM.graphEmbedding m emb) (AM.key_glimpse m emb) (AM.val_glimpse m emb)
    (AM.logit_key m emb) hN (some tt) N (TSPState.make_state hN)
    (by simp [TSPState.make_state]) (fun _ => ⟨0, hN⟩)
    out.1 out.2.1 out.2.2.1 out.2.2.2 hout
  obtain ⟨htr, hlp⟩ := decode_loop_teacher_trace m critic rand sfuel points emb
    (AM.graphEmbedding m emb) (AM.key_glimpse m emb) (AM.val_glimpse m emb)
    (AM.logit_key m emb) hN tt N (TSPState.make_state hN)
    (by simp [TSPState.make_state]) (fun _ => ⟨0, hN⟩)
    out.1 out.2.1 out.2.2.1 out.2.2.2 hout
  have hne : out.2.2.2 ≠ [] := by
    intro h0
    rw [h0] at hlen
    simp at hlen
    omega
  have hhead : ∃ a, out.2.2.2.head? = some a := by
    cases hl : out.2.2.2 with
    | nil => exact absurd hl hne
    | cons a t => exact ⟨a, rfl⟩
  obtain ⟨first, hfirst⟩ := hhead
  obtain ⟨last, hlast⟩ : ∃ x, out.2.2.2.getLast? = some x :=
    ⟨out.2.2.2.getLast hne, List.getLast?_eq_getLast _ hne⟩
  refine ⟨{ log_ps := out.1
            instant_rewards := out.2.1
            values := out.2.2.1
            cost := get_costs points out.2.2.2
            reward_final := fun b => -(AM.calc_distance points last first b)
            tours := out.2.2.2 }, ?_, ?_, ?_, ?_⟩
  · simp only [AM.decoder]
    rw [hout]
    simp only [hlast, hfirst]
  · rw [htr]
    dsimp only
    congr 1
    funext j b
    rw [show (TSPState.make_state hN : TSPState B N).i + j = j from by
      simp [TSPState.make_state]]
  · rw [hlp]
    dsimp only
    congr 1
    funext j b
    rw [show (TSPState.make_state hN : TSPState B N).i + j = j from by
      simp [TSPState.make_state]]
    rfl
  · intro rand2 sfuel2 dt2
    simp only [AM.decoder]
    rw [show AM.graphEmbedding { m with decode_type := dt2 } emb
        = AM.graphEmbedding m emb from rfl,
      show AM.key_glimpse { m with decode_type := dt2 } emb
        = AM.key_glimpse m emb from rfl,
      show AM.val_glimpse { m with decode_type := dt2 } emb
        = AM.val_glimpse m emb from rfl,
      show AM.logit_key { m with decode_type := dt2 } emb
        = AM.logit_key m emb from rfl]
    rw [decode_loop_teacher_conf_irrel m critic rand sfuel points emb
      (AM.graphEmbedding m emb) (AM.key_glimpse m emb) (AM.val_glimpse m emb)
      (AM.logit_key m emb) hN tt rand2 sfuel2 dt2 N (TSPState.make_state hN)
      (by simp [TSPState.make_state]) (fun _ => ⟨0, hN⟩)]

/-- A greedy selection from an all-false mask never errors. -/
theorem select_node_no_error_unmasked (rnd : ℕ → Fin B → Fin N) (f : ℕ)
    (mask : Fin B → Fin N → Bool)
    (hdt : m.decode_type = some "greedy")
    (hmask : ∀ b j, mask b j = false) (probs : Fin B → Fin N → ℝ) (e : DecodeErr) :
    select_node m hN rnd f probs mask ≠ .error e := by
  unfold select_node
  rw [if_pos hdt, dif_neg (by simp [hmask])]
  simp

/-- When `torch.squeeze` collapses the batch or node axis (`B = 1` or
`N = 1`), the first executed step of the decode loop fails at the line-107
gather, provided the step's own selection succeeds (teacher forcing, or
greedy from an all-false mask). -/
theorem decode_loop_squeeze_fail (teacher : Option (ℕ → Fin B → Fin N))
    (hsq : ¬ (torch_squeeze [B, 1, N]).length = 2)
    (hsel : m.decode_type = some "greedy" ∨ ∃ tt, teacher = some tt)
    (k : ℕ) (s : TSPState B N) (hk : s.i + (k + 1) = N) (prev : Fin B → Fin N)
    (hmask : ∀ b j, s.get_mask b j = false) :
    AM.decode_loop m critic rand sfuel points emb graphEmb K V L teacher hN
      (k + 1) s hk prev = .error .squeezeGather := by
  have hnan : ∀ b, ∃ j, s.get_mask b j = false := fun b => ⟨⟨0, hN⟩, hmask b _⟩
  simp only [AM.decode_loop]
  rw [dif_pos hnan]
  split
  · rename_i e heq
    cases teacher with
    | none =>
      simp only at heq
      rcases hsel with hdt | ⟨tt, htt⟩
      · exact absurd heq (select_node_no_error_unmasked m hN (rand s.i) sfuel
          s.get_mask hdt hmask _ e)
      · exact absurd htt (by simp)
    | some tt => simp at heq
  · rename_i selected heq
    rw [if_neg hsq]

end LoopLemmas

/-! ## Concrete instances for the closed rollout witnesses -/

/-- A concrete critic collaborator returning zero value estimates for a
two-instance two-node batch. -/
noncomputable def critic22 : (Fin 2 → Fin 2 → Fin (1 * 1) → ℝ) →
    (Fin 2 → Fin 2 → Bool) → (Fin 2 → Fin (2 * (1 * 1)) → ℝ) → Fin 2 → ℝ :=
  fun _ _ _ _ => 0

/-- A concrete random stream over a two-instance two-node batch. -/
def rand22 : ℕ → ℕ → Fin 2 → Fin 2 := fun _ _ _ => 0

/-- A second, different random stream. -/
def rand22b : ℕ → ℕ → Fin 2 → Fin 2 := fun _ _ _ => 1

/-- Concrete coordinates of a two-instance two-node batch. -/
noncomputable def pts22 : Fin 2 → Fin 2 → Fin 2 → ℝ := fun _ n _ => (n : ℝ)

/-- A concrete node-embedding batch. -/
noncomputable def emb22 : Fin 2 → Fin 2 → Fin (1 * 1) → ℝ := fun _ _ _ => 0

/-- A concrete identity encoder collaborator. -/
def enc22 : (Fin 2 → Fin 2 → Fin (1 * 1) → ℝ) → (Fin 2 → Fin 2 → Fin (1 * 1) → ℝ) :=
  fun x => x

/-- A concrete per-row-injective teacher tour (`0, 1` in every row). -/
def tt22 : ℕ → Fin 2 → Fin 2 := fun i _ => ⟨i % 2, Nat.mod_lt i (by omega)⟩

/-- Witness for C1: a concrete greedy rollout on a two-instance two-node
batch succeeds and each returned tour row is duplicate-free and exhausts both
nodes. -/
theorem c1_witness :
    ∃ res : RolloutResult 2 2,
      AM.decoder am11 critic22 rand22 0 pts22 emb22 none (Nat.succ_pos 1) = .ok res ∧
      ∀ b, ((res.tours.map (fun f => f b)).Nodup ∧
        ∀ v : Fin 2, v ∈ res.tours.map (fun f => f b)) := by
  obtain ⟨res, hres⟩ := decoder_greedy_ok am11 critic22 rand22 0 pts22 emb22
    (Nat.succ_pos 1) rfl (by decide)
  exact ⟨res, hres,
    c1_tours_permutation am11 critic22 rand22 0 pts22 emb22 (Nat.succ_pos 1) res hres⟩

/-- Witness for C4: on the same concrete greedy rollout, the instant-reward
and closing-reward structure holds. -/
theorem c4_witness :
    ∃ res : RolloutResult 2 2,
      AM.decoder am11 critic22 rand22b 3 pts22 emb22 none (Nat.succ_pos 1) = .ok res ∧
      (res.instant_rewards.length = 2 ∧ res.tours.length = 2 ∧
       (∀ b, res.instant_rewards.getD 0 (fun _ => 1) b = 0) ∧
       (∀ b, ∃ x rest, res.tours.map (fun f => f b) = x :: rest ∧
         res.instant_rewards.map (fun f => f b)
           = 0 :: List.zipWith (fun u v => -(euclid (pts22 b v) (pts22 b u)))
               (x :: rest) rest) ∧
       (∀ (b : Fin 2) (i : ℕ), i + 1 < 2 →
         res.instant_rewards.getD (i + 1) (fun _ => 0) b
           = -(euclid (pts22 b (res.tours.getD (i + 1) (fun _ => ⟨0, Nat.succ_pos 1⟩) b))
               (pts22 b (res.tours.getD i (fun _ => ⟨0, Nat.succ_pos 1⟩) b)))) ∧
       (∀ b, ∃ first last, res.tours.head? = some first ∧
         res.tours.getLast? = some last ∧
         res.reward_final b = -(euclid (pts22 b (last b)) (pts22 b (first b))))) := by
  obtain ⟨res, hres⟩ := decoder_greedy_ok am11 critic22 rand22b 3 pts22 emb22
    (Nat.succ_pos 1) rfl (by decide)
  exact ⟨res, hres,
    c4_instant_rewards am11 critic22 rand22b 3 pts22 emb22 (Nat.succ_pos 1) none res hres⟩

/-- Witness for C7: the concrete greedy forward run is unchanged when the
random stream and resampling budget are swapped out. -/
theorem c7_witness :
    AM.forward am11 enc22 critic22 rand22 0 pts22 none (Nat.succ_pos 1)
      = AM.forward am11 enc22 critic22 rand22b 5 pts22 none (Nat.succ_pos 1) :=
  c7_greedy_deterministic am11 critic22 rand22 0 (Nat.succ_pos 1) enc22 rand22b 5 pts22 rfl

/-- Witness for C2: on a concrete two-instance two-node batch, teacher
forcing with the per-row permutation `0, 1` reproduces that tour, returns the
policy log-probabilities of the forced actions, and ignores the selector
configuration. -/
theorem c2_witness :
    ∃ res : RolloutResult 2 2,
      AM.decoder am11 critic22 rand22 0 pts22 emb22 (some tt22) (Nat.succ_pos 1)
        = .ok res ∧
      res.tours = (List.range 2).map (fun j => fun b => tt22 j b) ∧
      res.log_ps = (List.range 2).map (fun j => fun b =>
        teacher_step_log_p am11 emb22 (Nat.succ_pos 1) tt22 j b (tt22 j b)) ∧
      (∀ (rand2 : ℕ → ℕ → Fin 2 → Fin 2) (sfuel2 : ℕ) (dt2 : Option String),
        AM.decoder { am11 with decode_type := dt2 } critic22 rand2 sfuel2 pts22 emb22
            (some tt22) (Nat.succ_pos 1)
          = AM.decoder am11 critic22 rand22 0 pts22 emb22 (some tt22) (Nat.succ_pos 1)) :=
  c2_teacher_forcing am11 critic22 rand22 0 pts22 emb22 (Nat.succ_pos 1) tt22
    (by decide) (by decide)
    (by intro b i j hi hj h
        have h2 : i % 2 = j % 2 := by
          have h3 := congrArg Fin.val h
          simpa [tt22] using h3
        omega)

/-! ## Concrete single-node instances (`N = 1`) -/

/-- A concrete critic collaborator for a two-instance single-node batch. -/
noncomputable def critic21 : (Fin 2 → Fin 1 → Fin (1 * 1) → ℝ) →
    (Fin 2 → Fin 1 → Bool) → (Fin 2 → Fin (2 * (1 * 1)) → ℝ) → Fin 2 → ℝ :=
  fun _ _ _ _ => 0

/-- A concrete random stream over a two-instance single-node batch. -/
def rand21 : ℕ → ℕ → Fin 2 → Fin 1 := fun _ _ _ => 0

/-- Concrete coordinates of a two-instance single-node batch. -/
noncomputable def pts21 : Fin 2 → Fin 1 → Fin 2 → ℝ := fun _ _ _ => 0

/-- A concrete node-embedding batch for the single-node instance. -/
noncomputable def emb21 : Fin 2 → Fin 1 → Fin (1 * 1) → ℝ := fun _ _ _ => 0

/-- A concrete identity encoder collaborator for the single-node instance. -/
def enc21 : (Fin 2 → Fin 1 → Fin (1 * 1) → ℝ) → (Fin 2 → Fin 1 → Fin (1 * 1) → ℝ) :=
  fun x => x

/-- The (unique possible) teacher tour on a single-node instance. -/
def tt21 : ℕ → Fin 2 → Fin 1 := fun _ _ => 0

/-- Counterexample to C2 as stated: on a single-node batch (`B = 2`,
`N = 1`) the supplied reference tour `[0]` is a valid per-row permutation,
yet the decoder does not reproduce it — the `log_p.squeeze()` gather of line
107 drops the node axis together with the step axis and the run fails. -/
theorem c2_counterexample :
    AM.decoder am11 critic21 rand21 0 pts21 emb21 (some tt21) Nat.one_pos
      = .error .squeezeGather := by
  simp only [AM.decoder]
  rw [decode_loop_squeeze_fail am11 critic21 rand21 0 pts21 emb21
    (AM.graphEmbedding am11 emb21) (AM.key_glimpse am11 emb21)
    (AM.val_glimpse am11 emb21) (AM.logit_key am11 emb21) Nat.one_pos
    (some tt21) (by decide) (Or.inr ⟨tt21, rfl⟩) 0 (TSPState.make_state Nat.one_pos)
    (by simp [TSPState.make_state]) (fun _ => ⟨0, Nat.one_pos⟩)
    (by intro b j; simp [TSPState.make_state, TSPState.get_mask])]

/-- C8: refuted — on a single-node instance (`N = 1`, here with batch size
`2`) `forward` does not complete at all: `log_p.squeeze()` at line 107 drops
the node axis together with the singleton step axis, so the
`[batch_id, selected]` gather raises an `IndexError` on the very first (and
only) loop step, instead of the run returning cost `0` and `reward_final`
`0`. -/
theorem c8_single_node_crash :
    AM.forward am11 enc21 critic21 rand21 0 pts21 none Nat.one_pos
      = .error .squeezeGather := by
  simp only [AM.forward, AM.decoder]
  rw [decode_loop_squeeze_fail am11 critic21 rand21 0 pts21 _
    (AM.graphEmbedding am11 _) (AM.key_glimpse am11 _)
    (AM.val_glimpse am11 _) (AM.logit_key am11 _) Nat.one_pos
    none (by decide) (Or.inl rfl) 0 (TSPState.make_state Nat.one_pos)
    (by simp [TSPState.make_state]) (fun _ => ⟨0, Nat.one_pos⟩)
    (by intro b j; simp [TSPState.make_state, TSPState.get_mask])]

/-! ## Construction-time validation (C5) -/

/-- A configuration whose embedding dimension (3) is not divisible by its
head count (2). -/
noncomputable def cfg32 : Cfg :=
  { embedding_dim := 3, hidden_dim := 4, n_layers_encoder := 1,
    tanh_clipping := 10, n_heads := 2, normalization := "batch" }

/-- Concrete all-zero initial parameters. -/
noncomputable def p0 : InitParams :=
  { placeholder_init := fun _ => 0, embedder_w := fun _ _ => 0,
    embedder_b := fun _ => 0, node_w := fun _ _ => 0, fixed_w := fun _ _ => 0,
    step_w := fun _ _ => 0, out_w := fun _ _ => 0, encoder_init := fun _ => 0,
    critic_init := fun _ => 0 }

/-- A concrete `(B, 1, N, E) = (1, 1, 1, 3)` projection tensor, as handed to
`_make_heads` during `_precompute` under `cfg32`. -/
noncomputable def t313 : Torch.Tensor := ⟨[1, 1, 1, 3], fun _ => 0⟩

/-- Counterexample to C5 as stated: under a configuration with
`embedding_dim = 3` and `n_heads = 2` (not divisible), construction succeeds
anyway — no step of `__init__` checks divisibility — and the failure only
surfaces later, in `_make_heads`'s `view` during the first forward pass. -/
theorem c5_counterexample :
    ¬ cfg32.n_heads ∣ cfg32.embedding_dim ∧
    (AM_init cfg32 p0).toOption.isSome = true ∧
    Torch.make_heads cfg32.n_heads t313 (some 1) = none :=
  ⟨by decide, rfl, rfl⟩

/-- C5 (amended): `AM.__init__` performs no validation of the embedding
dimension against the head count — construction succeeds for every
configuration — and for a non-divisible configuration the failure is instead
deferred to the first forward call: `_make_heads` applied to any
`(B, 1, N, E)`-shaped node projection errors in its
`view(B, 1, N, n_heads, -1)` step. -/
theorem c5_init_never_validates (cfg : Cfg) (p : InitParams) (v : Torch.Tensor)
    (B N : ℕ) (hshape : v.shape = [B, 1, N, cfg.embedding_dim])
    (hdvd : ¬ cfg.n_heads ∣ cfg.embedding_dim) :
    (∃ a, AM_init cfg p = .ok a) ∧
    Torch.make_heads cfg.n_heads v (some 1) = none := by
  refine ⟨⟨_, rfl⟩, ?_⟩
  have hsz1 : v.size1 1 = 1 := by simp [Torch.Tensor.size1, hshape]
  unfold Torch.make_heads
  rw [if_pos (by simp [hsz1])]
  have hview : v.contiguous.view
      [some (v.size1 0), some (v.size1 1), some (v.size1 2), some cfg.n_heads, none]
      = none := by
    unfold Torch.Tensor.view Torch.infer_view
    simp only [Torch.Tensor.contiguous, Torch.Tensor.size1, hshape]
    norm_num [List.countP, List.countP.go, List.filterMap]
    intro hB hN2 hH hd2
    exfalso
    apply hdvd
    have hBN : 0 < B * N := Nat.mul_pos hB hN2
    have hd3 : (B * N) * cfg.n_heads ∣ (B * N) * cfg.embedding_dim := by
      rw [mul_assoc, mul_assoc]
      exact hd2
    exact (Nat.mul_dvd_mul_iff_left hBN).mp hd3
  rw [hview]
  rfl

/-- Witness for (amended) C5 at the concrete non-divisible configuration. -/
theorem c5_witness :
    t313.shape = [1, 1, 1, cfg32.embedding_dim] ∧
    ¬ cfg32.n_heads ∣ cfg32.embedding_dim ∧
    ((∃ a, AM_init cfg32 p0 = .ok a) ∧
      Torch.make_heads cfg32.n_heads t313 (some 1) = none) :=
  ⟨rfl, by decide, c5_init_never_validates cfg32 p0 t313 1 1 rfl (by decide)⟩

/-! ## `_precompute` output layout (C9) -/

/-- A successful `view` has the inferred shape. -/
theorem view_shape (t : Torch.Tensor) (spec : List (Option ℕ)) (s2 : List ℕ)
    (h : Torch.infer_view t.shape.prod spec = some s2) :
    ∃ u, t.view spec = some u ∧ u.shape = s2 := by
  unfold Torch.Tensor.view
  rw [h]
  exact ⟨_, rfl, rfl⟩

/-- A well-formed `expand` has the broadcast shape. -/
theorem expand_shape (t : Torch.Tensor) (spec : List (Option ℕ))
    (hlen : t.shape.length = spec.length)
    (hok : (t.shape.zip spec).all (fun p => match p.2 with
        | none => true | some d => p.1 == d || p.1 == 1) = true) :
    ∃ u, t.expand spec = some u ∧
      u.shape = (t.shape.zip spec).map fun p => p.2.getD p.1 := by
  unfold Torch.Tensor.expand
  rw [if_pos (by simp [hlen, hok])]
  exact ⟨_, rfl, rfl⟩

/-- A well-formed `permute` reorders the shape accordingly. -/
theorem permute_shape (t : Torch.Tensor) (p : List ℕ)
    (hlen : p.length = t.shape.length)
    (hcont : ((List.range t.shape.length).all fun j => p.contains j) = true) :
    ∃ u, t.permute p = some u ∧ u.shape = p.map fun j => t.shape.getD j 0 := by
  unfold Torch.Tensor.permute
  rw [if_pos (by rw [hcont]; simp [hlen])]
  exact ⟨_, rfl, rfl⟩

/-- `_make_heads` with `num_steps = 1` on a `(B, 1, N, E)` tensor with a head
count dividing `E` succeeds with shape `(n_heads, B, 1, N, E / n_heads)`. -/
theorem make_heads_shape (nH B N E : ℕ) (v : Torch.Tensor)
    (hshape : v.shape = [B, 1, N, E])
    (hB : 0 < B) (hN : 0 < N) (hH : 0 < nH) (hdvd : nH ∣ E) :
    ∃ t, Torch.make_heads nH v (some 1) = some t ∧
      t.shape = [nH, B, 1, N, E / nH] := by
  have hs0 : v.size1 0 = B := by simp [Torch.Tensor.size1, hshape]
  have hs1 : v.size1 1 = 1 := by simp [Torch.Tensor.size1, hshape]
  have hs2 : v.size1 2 = N := by simp [Torch.Tensor.size1, hshape]
  have hdiv : B * (N * E) / (B * (N * nH)) = E / nH := by
    rw [← mul_assoc, ← mul_assoc, Nat.mul_div_mul_left _ _ (Nat.mul_pos hB hN)]
  have hinf : Torch.infer_view v.contiguous.shape.prod
      [some B, some 1, some N, some nH, none] = some [B, 1, N, nH, E / nH] := by
    unfold Torch.infer_view
    norm_num [List.countP, List.countP.go, List.filterMap,
      Torch.Tensor.contiguous, hshape]
    exact ⟨⟨⟨hB, hN, hH⟩, mul_dvd_mul_left B (mul_dvd_mul_left N hdvd)⟩, hdiv⟩
  obtain ⟨t1, ht1, hsh1⟩ := view_shape v.contiguous
    [some B, some 1, some N, some nH, none] [B, 1, N, nH, E / nH]
    (by simpa [Torch.Tensor.contiguous] using hinf)
  obtain ⟨t2, ht2, hsh2⟩ := expand_shape t1 [some B, some 1, some N, some nH, none]
    (by simp [hsh1]) (by simp [hsh1])
  have hsh2e : t2.shape = [B, 1, N, nH, E / nH] := by
    rw [hsh2, hsh1]
    simp
  obtain ⟨t3, ht3, hsh3⟩ := permute_shape t2 [3, 0, 1, 2, 4]
    (by simp [hsh2e]) (by simp [hsh2e]; decide)
  refine ⟨t3, ?_, ?_⟩
  · unfold Torch.make_heads
    rw [if_pos (by simp [hs1]), hs0, hs1, hs2, ht1]
    show (t1.expand [some B, some 1, some N, some nH, none]).bind
        (fun t2 => t2.permute [3, 0, 1, 2, 4]) = some t3
    rw [ht2]
    show t2.permute [3, 0, 1, 2, 4] = some t3
    exact ht3
  · rw [hsh3, hsh2e]
    rfl

/-- C9 (amended): for a `(B, N, E)` embedding batch with a head count
dividing `E`, `_precompute` succeeds and returns the graph-level summary
(mean over nodes, linearly projected, shape `(B, 1, E)`) and three chunks of
one `3E`-wide node projection, of which only the glimpse key and glimpse
value are head-reshaped (to `(n_heads, B, 1, N, E / n_heads)`); the logit key
is kept as the raw contiguous chunk of shape `(B, 1, N, E)` and is not
reshaped into heads. -/
theorem c9_precompute_layout (E nH B N : ℕ) (Wf Wn : ℕ → ℕ → ℝ)
    (emb : Torch.Tensor) (hsh : emb.shape = [B, N, E])
    (hB : 0 < B) (hNp : 0 < N) (hH : 0 < nH) (hdvd : nH ∣ E) :
    ∃ g kg vg lk, Torch.precomputeF E nH Wf Wn emb = some (g, kg, vg, lk) ∧
      g = (Torch.linearNB Wf E E (emb.meanDim 1)).unsqueeze 1 ∧
      g.shape = [B, 1, E] ∧
      kg.shape = [nH, B, 1, N, E / nH] ∧
      vg.shape = [nH, B, 1, N, E / nH] ∧
      lk = ((Torch.linearNB Wn (3 * E) E (emb.unsqueeze 1)).chunkLast 3 2).contiguous ∧
      lk.shape = [B, 1, N, E] := by
  have hchsh : ∀ i, ((Torch.linearNB Wn (3 * E) E (emb.unsqueeze 1)).chunkLast 3 i).shape
      = [B, 1, N, E] := by
    intro i
    simp only [Torch.Tensor.chunkLast, Torch.linearNB, Torch.Tensor.unsqueeze, hsh]
    show [B, 1, N] ++ [3 * E / 3] = [B, 1, N, E]
    rw [Nat.mul_div_cancel_left E (by norm_num)]
    rfl
  obtain ⟨tK, hmh0, hshK⟩ := make_heads_shape nH B N E
    ((Torch.linearNB Wn (3 * E) E (emb.unsqueeze 1)).chunkLast 3 0)
    (hchsh 0) hB hNp hH hdvd
  obtain ⟨tV, hmh1, hshV⟩ := make_heads_shape nH B N E
    ((Torch.linearNB Wn (3 * E) E (emb.unsqueeze 1)).chunkLast 3 1)
    (hchsh 1) hB hNp hH hdvd
  refine ⟨(Torch.linearNB Wf E E (emb.meanDim 1)).unsqueeze 1, tK, tV,
    ((Torch.linearNB Wn (3 * E) E (emb.unsqueeze 1)).chunkLast 3 2).contiguous,
    ?_, rfl, ?_, hshK, hshV, rfl, ?_⟩
  · simp only [Torch.precomputeF]
    rw [hmh0, hmh1]
    rfl
  · simp only [Torch.Tensor.unsqueeze, Torch.linearNB, Torch.Tensor.meanDim, hsh]
    rfl
  · show ((Torch.linearNB Wn (3 * E) E (emb.unsqueeze 1)).chunkLast 3 2).shape
      = [B, 1, N, E]
    exact hchsh 2

/-- A concrete all-zero projection weight matrix. -/
noncomputable def W0 : ℕ → ℕ → ℝ := fun _ _ => 0

/-- A concrete `(B, N, E) = (1, 1, 2)` embedding batch. -/
noncomputable def emb112 : Torch.Tensor := ⟨[1, 1, 2], fun _ => 0⟩

/-- Counterexample to C9 as stated: with `E = 2` and `n_heads = 2`, the
glimpse key comes out head-reshaped, `(n_heads, B, 1, N, E / n_heads) =
(2, 1, 1, 1, 1)`, but the logit key does not — its shape stays the raw
chunk's `(B, 1, N, E) = (1, 1, 1, 2)`, which is not the head-reshaped
layout. -/
theorem c9_counterexample :
    (Torch.precomputeF 2 2 W0 W0 emb112).map
        (fun q => (q.2.1.shape, q.2.2.2.shape))
      = some ([2, 1, 1, 1, 1], [1, 1, 1, 2]) ∧
    ([1, 1, 1, 2] : List ℕ) ≠ [2, 1, 1, 1, 1] :=
  ⟨rfl, by decide⟩

/-- Witness for (amended) C9 at the concrete divisible configuration. -/
theorem c9_witness :
    emb112.shape = [1, 1, 2] ∧ (2 : ℕ) ∣ 2 ∧
    (∃ g kg vg lk, Torch.precomputeF 2 2 W0 W0 emb112 = some (g, kg, vg, lk) ∧
      g = (Torch.linearNB W0 2 2 (emb112.meanDim 1)).unsqueeze 1 ∧
      g.shape = [1, 1, 2] ∧
      kg.shape = [2, 1, 1, 1, 2 / 2] ∧
      vg.shape = [2, 1, 1, 1, 2 / 2] ∧
      lk = ((Torch.linearNB W0 (3 * 2) 2 (emb112.unsqueeze 1)).chunkLast 3 2).contiguous ∧
      lk.shape = [1, 1, 1, 2]) :=
  ⟨rfl, by decide, c9_precompute_layout 2 2 1 1 W0 W0 emb112 rfl (by decide) (by decide)
    (by decide) (by decide)⟩
